import Mathlib

/-!
Shallow embedding of `.github/scripts/review.py`, the multi-provider AI
code-review pipeline (diff collection, secret redaction, size-based model
selection, concurrent provider invocation, summarization, and comment
publication), together with theorems settling the specification claims.

Text is modelled as `List Char` (Python `str`).  Python integers are `Int`
(configuration thresholds) or `Nat` (lengths and token counts).  Exceptions
are modelled explicitly: a provider SDK call either returns text or raises an
exception, and each backend has a designated escalation ("APIError") class;
the `try/except` ladders of the source are embedded as functions on those
outcomes.  `asyncio.gather(..., return_exceptions=True)` returns the entries
in argument order with raised exceptions appearing as exception entries, which
is how it is embedded here.
-/

/-- Abbreviation: the character list of a string literal. -/
def strL (s : String) : List Char := s.toList

/-! ## Configuration (`ReviewConfig`, `CONFIG`) -/

/-- Embeds the frozen dataclass `ReviewConfig` of review.py. -/
structure ReviewConfig where
  gemini_model : List Char
  gpt_model : List Char
  claude_model : List Char
  summarizer_model : List Char
  small_diff_threshold : Int
  flash_only_max_tokens : Int
deriving DecidableEq

/-- The default configuration: every environment variable unset, so each
field takes the default written in review.py. -/
def CONFIG : ReviewConfig :=
  { gemini_model := strL "gemini-2.5-flash"
    gpt_model := strL "gpt-4o"
    claude_model := strL "claude-sonnet-4-5"
    summarizer_model := strL "gemini-2.5-pro"
    small_diff_threshold := 30000
    flash_only_max_tokens := 300000 }

/-! ## Diff collection (`get_diff`) -/

/-- One file of the pull request's file list: a filename and the optional
patch text (`None` for binary/renamed files; may also be empty). -/
structure PRFile where
  filename : List Char
  patch : Option (List Char)
deriving DecidableEq

/-- `files_to_exclude = ['.env', '.env.local', 'secrets.yaml']`. -/
def files_to_exclude : List (List Char) :=
  [strL ".env", strL ".env.local", strL "secrets.yaml"]

/-- The binary / lockfile extensions excluded by the second `endswith`. -/
def binary_extensions : List (List Char) :=
  [strL ".lock", strL ".png", strL ".jpg", strL ".svg"]

/-- `f"File: {file.filename}\nDiff:\n{file.patch}\n\n"`. -/
def diff_entry (filename patch : List Char) : List Char :=
  strL "File: " ++ filename ++ strL "\nDiff:\n" ++ patch ++ strL "\n\n"

/-- Embeds `get_diff`: walks the PR's files in order, skipping filenames that
end with a denylisted name, filenames ending with a binary extension, and
files whose patch is absent or empty (`if not file.patch`), concatenating a
`diff_entry` for each remaining file. -/
def get_diff : List PRFile → List Char
  | [] => []
  | f :: fs =>
    if files_to_exclude.any (fun d => d.isSuffixOf f.filename) then get_diff fs
    else if binary_extensions.any (fun d => d.isSuffixOf f.filename) then get_diff fs
    else
      match f.patch with
      | none => get_diff fs
      | some [] => get_diff fs
      | some p => diff_entry f.filename p ++ get_diff fs

/-! ## Size classification (`check_diff_size` and the tier derived from it) -/

/-- `token_count = len(diff_text) // 3`. -/
def token_count_of (diff_text : List Char) : Nat := diff_text.length / 3

/-- Embeds `check_diff_size`: `(False, count)` when the estimate exceeds
`flash_only_max_tokens`, else `(True, count)`. -/
def check_diff_size (cfg : ReviewConfig) (diff_text : List Char) : Bool × Nat :=
  let token_count := token_count_of diff_text
  if (token_count : Int) > cfg.flash_only_max_tokens then (false, token_count)
  else (true, token_count)

/-- The three review tiers of the specification. -/
inductive ReviewTier
  | Full
  | CostOptimized
  | Rejected
deriving DecidableEq

/-- The tier actually decided by the code for a given estimated token count:
`main` first rejects when `check_diff_size` returns `False`
(count > flash_only_max_tokens); otherwise `select_and_run_models` runs all
three models when count ≤ small_diff_threshold and only Gemini otherwise. -/
def tier_of (cfg : ReviewConfig) (token_count : Nat) : ReviewTier :=
  if (token_count : Int) > cfg.flash_only_max_tokens then .Rejected
  else if (token_count : Int) ≤ cfg.small_diff_threshold then .Full
  else .CostOptimized

/-! ## Provider clients (`ask_gemini`, `ask_openai`, `ask_claude`)

Each backend SDK call either returns response text or raises.  Each of the
three client functions designates one exception class (`APIError` for Gemini,
`OpenAI.APIError`, `Anthropic.APIError`) whose `except` clause re-raises,
while the later `except Exception` clause converts any other exception into a
labeled error string.  The exception taxonomy is embedded abstractly:
`PyExc.apiError` is an exception of the designated escalation class of the
backend being called, `PyExc.otherExc` any other exception. -/

/-- An exception raised by a backend SDK call, classified by whether it
belongs to the backend's designated escalation (quota/billing) class. -/
inductive PyExc
  | apiError (msg : List Char)
  | otherExc (msg : List Char)
deriving DecidableEq

/-- The outcome of the underlying SDK call: response text, or a raised
exception. -/
inductive SdkOutcome
  | ok (text : List Char)
  | raises (e : PyExc)
deriving DecidableEq

/-- What an `async def ask_*` invocation does: return a string, or raise. -/
inductive CallResult
  | ret (s : List Char)
  | raised (e : PyExc)
deriving DecidableEq

/-- `str(e)` of an exception. -/
def excMsg : PyExc → List Char
  | .apiError m => m
  | .otherExc m => m

/-- Whether an exception belongs to the designated escalation class, i.e.
is matched by the first `except ... as e: raise e` clause. -/
def isApiErrorExc : PyExc → Bool
  | .apiError _ => true
  | .otherExc _ => false

/-- The shared `try/except` ladder of the three client functions: a returned
response is labeled with the provider header; a raised exception is first
tested against the escalation class (`except APIError: raise e`) and only
otherwise converted into the labeled error string (`except Exception`). -/
def run_provider_try (header errHeader : List Char) : SdkOutcome → CallResult
  | .ok t => .ret (header ++ t)
  | .raises e =>
    if isApiErrorExc e then .raised e
    else .ret (errHeader ++ excMsg e)

/-- Embeds `ask_gemini`. -/
def ask_gemini (o : SdkOutcome) : CallResult :=
  run_provider_try (strL "## ♊ Gemini\n")
    (strL "## ♊ Gemini (Error)\nエラーが発生しました: ") o

/-- Embeds `ask_openai`. -/
def ask_openai (o : SdkOutcome) : CallResult :=
  run_provider_try (strL "## 🤖 ChatGPT\n")
    (strL "## 🤖 ChatGPT (Error)\nエラーが発生しました: ") o

/-- Embeds `ask_claude`. -/
def ask_claude (o : SdkOutcome) : CallResult :=
  run_provider_try (strL "## 🧠 Claude\n")
    (strL "## 🧠 Claude (Error)\nエラーが発生しました: ") o

/-! ## Orchestration (`select_and_run_models`) -/

/-- `[r for r in results_raw if not isinstance(r, Exception)]`. -/
def gather_filter (results_raw : List CallResult) : List (List Char) :=
  results_raw.filterMap (fun r =>
    match r with
    | .ret s => some s
    | .raised _ => none)

/-- The degradation-marker message appended in the cost-optimized branch. -/
def cost_message (token_count : Nat) : List Char :=
  strL ("⚠️ **DIFFサイズ (" ++ toString token_count ++
    " トークン) のため、Geminiのみでコスト優先レビューを実施しました。**")

/-- Embeds `select_and_run_models`.  The raw gathered list (argument order;
raised exceptions as exception entries) is built per tier — with the cost
message appended after the single-provider gather — then exceptions are
filtered out and an empty result is returned as the empty list.  The final
`else` branch returns `[]` before any gather. -/
def select_and_run_models (cfg : ReviewConfig) (token_count : Nat)
    (og oo oc : SdkOutcome) : List (List Char) :=
  let results_raw : Option (List CallResult) :=
    if (token_count : Int) ≤ cfg.small_diff_threshold then
      some [ask_gemini og, ask_openai oo, ask_claude oc]
    else if (token_count : Int) ≤ cfg.flash_only_max_tokens then
      some ([ask_gemini og] ++ [.ret (cost_message token_count)])
    else none
  match results_raw with
  | none => []
  | some raw =>
    let results := gather_filter raw
    if results.isEmpty then [] else results

/-- What `main` does right after `select_and_run_models` returns. -/
inductive PipelineStep
  | post_all_failed_notice
  | run_summarizer
deriving DecidableEq

/-- `if not results: pr.create_issue_comment("🚨 致命的なエラー: ..."); return`
— otherwise the pipeline continues with `summarize_reviews`. -/
def main_after_run (results : List (List Char)) : PipelineStep :=
  if results.isEmpty then .post_all_failed_notice else .run_summarizer

/-! ## Aggregation (`summarize_reviews`) -/

/-- The separator `"\n\n---\n\n"` used by `"\n\n---\n\n".join(...)`. -/
def summary_sep : List Char := strL "\n\n---\n\n"

/-- Python `sep.join(xs)`. -/
def joinSep (sep : List Char) : List (List Char) → List Char
  | [] => []
  | [x] => x
  | x :: xs => x ++ sep ++ joinSep sep xs

/-- Embeds `summarize_reviews`: on success the summarizer's text under the
crown header naming the summarizer model; on any exception the error header
followed by the raw concatenation of all inputs. -/
def summarize_reviews (cfg : ReviewConfig) (o : SdkOutcome)
    (all_results : List (List Char)) : List Char :=
  match o with
  | .ok t =>
    strL "# 👑 統合AIレビュー (by " ++ cfg.summarizer_model ++ strL ")\n\n" ++ t
  | .raises e =>
    strL "# 👑 統合AIレビュー (Error)\n統合処理中にエラーが発生しました: " ++
      excMsg e ++ strL "\n\n" ++ joinSep summary_sep all_results

/-! ## Publication (`main`, comment replacement) -/

/-- `HEADER_IDENTIFIER = "# 👑 統合AIレビュー"`. -/
def HEADER_IDENTIFIER : List Char := strL "# 👑 統合AIレビュー"

/-- An existing issue comment: its body and whether `comment.delete()` would
raise for it (the external collaborator's behavior). -/
structure IssueComment where
  commentId : Nat
  body : List Char
  deleteFails : Bool
deriving DecidableEq

/-- Embeds the deletion loop of `main`: every comment whose body contains
`HEADER_IDENTIFIER` is deleted; a `delete()` that raises is caught by the
`try/except` (logged and skipped) so the comment survives and the loop
continues with the remaining comments. -/
def deletePass : List IssueComment → List IssueComment
  | [] => []
  | c :: cs =>
    if HEADER_IDENTIFIER <:+: c.body then
      if c.deleteFails then c :: deletePass cs else deletePass cs
    else c :: deletePass cs

/-- The thread after the publication phase of `main`: the deletion loop runs
over all existing comments, then `pr.create_issue_comment(final_comment)`
appends the single new report comment. -/
def publishReport (comments : List IssueComment) (newComment : IssueComment) :
    List IssueComment :=
  deletePass comments ++ [newComment]

/-! ## Secret redaction (`redact_secrets`)

The nine regular expressions of `secret_patterns` are embedded as explicit
matchers.  Eight of them share the shape «a literal alternative, then a
repetition of a character class» (`SimplePattern`); the Bearer/JWT pattern is
embedded on its own.  `re.sub` is embedded by `subF`: scan left to right, at
each position try the pattern's deterministic leftmost-greedy match (Python's
backtracking is deterministic for these patterns because their literals,
classes and separators are disjoint), replace a match with the sentinel and
continue after it, otherwise keep the character.  `\s` is modelled as the
full set of characters Python's Unicode `\s` matches on `str`. -/

/-- `REDACTED_TEXT = "[REDACTED_SECRET]"`. -/
def REDACTED_TEXT : List Char := strL "[REDACTED_SECRET]"

/-- `[0-9]`. -/
def digitChar (c : Char) : Bool := '0' ≤ c && c ≤ '9'

/-- `[A-Z]`. -/
def upperChar (c : Char) : Bool := 'A' ≤ c && c ≤ 'Z'

/-- `[a-z]`. -/
def lowerChar (c : Char) : Bool := 'a' ≤ c && c ≤ 'z'

/-- `[0-9A-Z]`. -/
def upperDigitChar (c : Char) : Bool := digitChar c || upperChar c

/-- `[0-9a-zA-Z]`. -/
def alnumChar (c : Char) : Bool := digitChar c || lowerChar c || upperChar c

/-- `[0-9a-zA-Z-]`. -/
def alnumDashChar (c : Char) : Bool := alnumChar c || c == '-'

/-- `[a-zA-Z0-9_-]` (also `[0-9A-Za-z-_]` of the Google key pattern). -/
def tokenChar (c : Char) : Bool := alnumChar c || c == '_' || c == '-'

/-- `\s` of Python's `re` on `str` (Unicode mode, the default for these
patterns): exactly the characters `str.isspace` accepts — ASCII whitespace
`\t`–`\r` and the space, the separator controls `\x1c`–`\x1f`, next line
`\x85`, no-break space `\xa0`, the ogham space mark `\u1680`, the
fixed-width spaces `\u2000`–`\u200a`, the line and paragraph separators
`\u2028`/`\u2029`, the narrow no-break space `\u202f`, the medium
mathematical space `\u205f`, and the ideographic space `\u3000`. -/
def spaceChar (c : Char) : Bool :=
  ('\t' ≤ c && c ≤ '\r') || c == ' ' || ('\x1c' ≤ c && c ≤ '\x1f') ||
  c == '\x85' || c == '\xa0' || c == '\u1680' ||
  ('\u2000' ≤ c && c ≤ '\u200a') || c == '\u2028' || c == '\u2029' ||
  c == '\u202f' || c == '\u205f' || c == '\u3000'

/-- Length of the maximal prefix of the list whose characters satisfy the
class (what a greedy `cls*` consumes). -/
def runCount (cls : Char → Bool) : List Char → Nat
  | [] => 0
  | c :: cs => if cls c then runCount cls cs + 1 else 0

/-- A pattern of the shape `(?:lit₁|…|litₙ)cls{lo,hi}` (`hi = none` for an
unbounded repetition).  All nine literal alternatives used below are nonempty,
and within one pattern all have the same length, so at any position at most
one alternative can match. -/
structure SimplePattern where
  lits : List (List Char)
  cls : Char → Bool
  lo : Nat
  hi : Option Nat

/-- Leftmost-greedy match of a `SimplePattern` at the head of `s`: find the
literal alternative that prefixes `s`, consume the maximal class run after it
(capped at `hi`), and succeed when at least `lo` characters were consumed. -/
def spMatchAt (p : SimplePattern) (s : List Char) :
    Option (List Char × List Char) :=
  match p.lits.find? (fun l => l.isPrefixOf s) with
  | none => none
  | some l =>
    let rest := s.drop l.length
    let r := runCount p.cls rest
    let k := match p.hi with | none => r | some h => min r h
    if p.lo ≤ k then some (l ++ rest.take k, rest.drop k) else none

/-- The full-string match predicate of a `SimplePattern`: some literal
alternative followed by between `lo` and `hi` class characters. -/
def spIsMat (p : SimplePattern) (m : List Char) : Bool :=
  p.lits.any (fun l =>
    l.isPrefixOf m && (m.drop l.length).all p.cls &&
      decide (p.lo ≤ (m.drop l.length).length) &&
      (match p.hi with
       | none => true
       | some h => decide ((m.drop l.length).length ≤ h)))

/-- `r'(AKIA[0-9A-Z]{16,})'` — AWS Access Key ID. -/
def awsPat : SimplePattern := ⟨[strL "AKIA"], upperDigitChar, 16, none⟩

/-- `r'(ghp_[0-9a-zA-Z]{36,})'` — GitHub personal access token. -/
def ghpPat : SimplePattern := ⟨[strL "ghp_"], alnumChar, 36, none⟩

/-- `r'(ghs_[0-9a-zA-Z]{36,})'` — GitHub scoped token. -/
def ghsPat : SimplePattern := ⟨[strL "ghs_"], alnumChar, 36, none⟩

/-- `r'(xoxb-[0-9a-zA-Z-]+)'` — Slack bot token. -/
def slackPat : SimplePattern := ⟨[strL "xoxb-"], alnumDashChar, 1, none⟩

/-- `r'(sk-[0-9a-zA-Z]{32,})'` — OpenAI key. -/
def openaiPat : SimplePattern := ⟨[strL "sk-"], alnumChar, 32, none⟩

/-- `r'(?:rk|sk)_(?:live|test)_[0-9a-zA-Z]{24,}'` — Stripe API key; the four
alternative expansions all have length 8 and are pairwise distinct. -/
def stripePat : SimplePattern :=
  ⟨[strL "rk_live_", strL "rk_test_", strL "sk_live_", strL "sk_test_"],
    alnumChar, 24, none⟩

/-- `r'(pk-[0-9a-zA-Z]{24,})'`. -/
def pkPat : SimplePattern := ⟨[strL "pk-"], alnumChar, 24, none⟩

/-- `r'(AIza[0-9A-Za-z-_]{35})'` — Google API key (exactly 35 class chars). -/
def googlePat : SimplePattern := ⟨[strL "AIza"], tokenChar, 35, some 35⟩

/-- The literal `Bearer` of the JWT pattern. -/
def bearerLit : List Char := strL "Bearer"

/-- Leftmost-greedy match of
`r'(Bearer\s+[a-zA-Z0-9_-]+\.[a-zA-Z0-9_-]+\.[a-zA-Z0-9_-]+)'` at the head of
`s`.  The three classes involved (`\s`, the token class, the literal `.`) are
pairwise disjoint, so Python's backtracking search is equivalent to this
deterministic parse with maximal runs. -/
def jwtMatchAt (s : List Char) : Option (List Char × List Char) :=
  if bearerLit.isPrefixOf s then
    let r0 := s.drop bearerLit.length
    let w := runCount spaceChar r0
    if w = 0 then none else
    let r1 := r0.drop w
    let a := runCount tokenChar r1
    if a = 0 then none else
    match r1.drop a with
    | '.' :: r2 =>
      let b := runCount tokenChar r2
      if b = 0 then none else
      (match r2.drop b with
       | '.' :: r3 =>
         let n := runCount tokenChar r3
         if n = 0 then none else
         some (bearerLit ++ r0.take w ++
           (r1.take a ++ '.' :: (r2.take b ++ '.' :: r3.take n)), r3.drop n)
       | _ => none)
    | _ => none
  else none

/-- Full-string match predicate for the JWT pattern: the deterministic parse
succeeds and consumes the whole string. -/
def jwtIsMat (m : List Char) : Bool :=
  match jwtMatchAt m with
  | some (_, rest) => rest.isEmpty
  | none => false

/-- A compiled pattern: its match-at-head function and its full-string match
predicate. -/
structure RePat where
  matchAt : List Char → Option (List Char × List Char)
  isMat : List Char → Bool

/-- Wraps a `SimplePattern`. -/
def spRePat (p : SimplePattern) : RePat := ⟨spMatchAt p, spIsMat p⟩

/-- Wraps the JWT pattern. -/
def jwtRePat : RePat := ⟨jwtMatchAt, jwtIsMat⟩

/-- `secret_patterns`, in the order of the Python list. -/
def secret_patterns : List RePat :=
  [spRePat awsPat, spRePat ghpPat, spRePat ghsPat, spRePat slackPat,
   spRePat openaiPat, spRePat stripePat, jwtRePat, spRePat pkPat,
   spRePat googlePat]

/-- One `re.sub` scan with explicit fuel (called with `fuel = s.length`,
which suffices because every match is nonempty): at each position, replace a
match of `M` with the sentinel and continue after it, otherwise keep the
character and move on. -/
def subF (M : List Char → Option (List Char × List Char)) :
    Nat → List Char → List Char
  | _, [] => []
  | 0, _ :: _ => []
  | fuel + 1, c :: cs =>
    match M (c :: cs) with
    | some (_, rest) => REDACTED_TEXT ++ subF M fuel rest
    | none => c :: subF M fuel cs

/-- `re.sub(pattern, REDACTED_TEXT, text)` for one pattern. -/
def re_sub (M : List Char → Option (List Char × List Char))
    (s : List Char) : List Char :=
  subF M s.length s

/-- Embeds `redact_secrets`: apply the nine substitutions in order. -/
def redact_secrets (diff_text : List Char) : List Char :=
  secret_patterns.foldl (fun t p => re_sub p.matchAt t) diff_text

/-- Relates a scan input to a scan output: the output arises by copying
characters and replacing nonempty spans with the sentinel, left to right.
`subF` produces exactly such outputs. -/
inductive Repl : List Char → List Char → Prop
  | nil : Repl [] []
  | copy (c : Char) {t out : List Char} : Repl t out → Repl (c :: t) (c :: out)
  | repl {m t out : List Char} (hm : m ≠ []) :
      Repl t out → Repl (m ++ t) (REDACTED_TEXT ++ out)

/-- Soundness of a matcher: a reported match really decomposes the input and
is nonempty (so the scan makes progress). -/
def MSound (M : List Char → Option (List Char × List Char)) : Prop :=
  ∀ s m r, M s = some (m, r) → s = m ++ r ∧ m ≠ []

/-- Well-formedness of a `SimplePattern`: the literal alternatives are
nonempty and all of one length (so at most one can match at a position). -/
def SPWf (p : SimplePattern) : Prop :=
  (∀ l ∈ p.lits, l ≠ []) ∧ (∀ l1 ∈ p.lits, ∀ l2 ∈ p.lits, l1.length = l2.length)

/-- The properties of a compiled pattern that the redaction proofs use:
the matcher is sound for the full-string predicate and complete (it cannot
miss a match beginning at the scan position); matches are nonempty, contain
no square bracket, and no match occurs inside the sentinel. -/
structure GoodPat (p : RePat) : Prop where
  sound : ∀ s m r, p.matchAt s = some (m, r) → s = m ++ r ∧ p.isMat m = true
  nonempty : ∀ m, p.isMat m = true → m ≠ []
  complete : ∀ m r, p.isMat m = true → p.matchAt (m ++ r) ≠ none
  alphL : ∀ m, p.isMat m = true → '[' ∉ m
  alphR : ∀ m, p.isMat m = true → ']' ∉ m
  nosent : ∀ m, p.isMat m = true → ¬ m <:+: REDACTED_TEXT

/-! ## Basic list lemmas -/

theorem partOf_refl (l : List Char) : l <:+: l := ⟨[], [], by simp⟩

theorem partOf_appendLeft {m x : List Char} (y : List Char) (h : m <:+: x) :
    m <:+: x ++ y := by
  obtain ⟨u, v, rfl⟩ := h
  exact ⟨u, v ++ y, by simp⟩

theorem partOf_appendRight {m y : List Char} (x : List Char) (h : m <:+: y) :
    m <:+: x ++ y := by
  obtain ⟨u, v, rfl⟩ := h
  exact ⟨x ++ u, v, by simp⟩

theorem partOf_cons {m t : List Char} (c : Char) (h : m <:+: t) :
    m <:+: c :: t :=
  partOf_appendRight [c] h

theorem pre_partOf {m t : List Char} (h : m <+: t) : m <:+: t := by
  obtain ⟨v, rfl⟩ := h
  exact ⟨[], v, rfl⟩

/-- An element of a joined list is contained in the join. -/
theorem mem_partOf_joinSep (sep : List Char) :
    ∀ (rs : List (List Char)) (r : List Char), r ∈ rs → r <:+: joinSep sep rs := by
  intro rs
  induction rs with
  | nil => simp
  | cons x xs ih =>
    intro r hr
    cases xs with
    | nil =>
      simp only [List.mem_singleton] at hr
      subst hr
      exact partOf_refl r
    | cons y ys =>
      rcases List.mem_cons.mp hr with h | h
      · subst h
        show r <:+: r ++ sep ++ joinSep sep (y :: ys)
        exact partOf_appendLeft _ (partOf_appendLeft _ (partOf_refl r))
      · show r <:+: x ++ sep ++ joinSep sep (y :: ys)
        exact partOf_appendRight (x ++ sep) (ih r h)

/-! ## Claim C2 — tier boundaries -/

/-- C2 counterexample: with configured thresholds `small_diff_threshold = 1`
and `flash_only_max_tokens = 0` (the claim quantifies over every pair of
configured thresholds), an estimated count of 1 satisfies
`count ≤ smallDiffThreshold` yet the decided tier is `Rejected`, not `Full`,
because the size check against `flash_only_max_tokens` runs first. -/
theorem c2_counterexample :
    ¬ (tier_of
        { gemini_model := [], gpt_model := [], claude_model := [],
          summarizer_model := [], small_diff_threshold := 1,
          flash_only_max_tokens := 0 } 1 = .Full ↔ ((1 : Nat) : Int) ≤ 1) := by
  decide

/-- C2 (amended): whenever `small_diff_threshold ≤ flash_only_max_tokens`,
the tier decision is exactly `Full` iff count ≤ smallDiffThreshold,
`CostOptimized` iff smallDiffThreshold < count ≤ flashOnlyMaxTokens and
`Rejected` iff count > flashOnlyMaxTokens; the stated boundary cases
(count = small ⇒ Full, count = small+1 ⇒ CostOptimized,
count = flashMax+1 ⇒ Rejected) hold whenever additionally
`small_diff_threshold < flash_only_max_tokens`. -/
theorem c2_amended (cfg : ReviewConfig) :
    (cfg.small_diff_threshold ≤ cfg.flash_only_max_tokens →
      ∀ tc : Nat,
        (tier_of cfg tc = .Full ↔ (tc : Int) ≤ cfg.small_diff_threshold) ∧
        (tier_of cfg tc = .CostOptimized ↔
          cfg.small_diff_threshold < (tc : Int) ∧
            (tc : Int) ≤ cfg.flash_only_max_tokens) ∧
        (tier_of cfg tc = .Rejected ↔ cfg.flash_only_max_tokens < (tc : Int))) ∧
    (cfg.small_diff_threshold < cfg.flash_only_max_tokens →
      ∀ tc : Nat,
        ((tc : Int) = cfg.small_diff_threshold → tier_of cfg tc = .Full) ∧
        ((tc : Int) = cfg.small_diff_threshold + 1 →
          tier_of cfg tc = .CostOptimized) ∧
        ((tc : Int) = cfg.flash_only_max_tokens + 1 →
          tier_of cfg tc = .Rejected)) := by
  constructor
  · intro hle tc
    refine ⟨?_, ?_, ?_⟩ <;> unfold tier_of <;> split_ifs with h1 h2 <;>
      simp only [reduceCtorEq, eq_self_iff_true, false_iff, true_iff, iff_false,
        iff_true] <;> omega
  · intro hlt tc
    refine ⟨?_, ?_, ?_⟩ <;> intro h <;> unfold tier_of <;>
      split_ifs with h1 h2 <;> first | rfl | (exfalso; omega)
  
/-- C2 witness: at the default thresholds (30000 < 300000) the amended
characterization applies; count 30000 is `Full`, 30001 is `CostOptimized`,
300001 is `Rejected`. -/
theorem c2_witness :
    tier_of CONFIG 30000 = .Full ∧ tier_of CONFIG 30001 = .CostOptimized ∧
      tier_of CONFIG 300001 = .Rejected :=
  ⟨((c2_amended CONFIG).2 (by decide) 30000).1 (by decide),
   ((c2_amended CONFIG).2 (by decide) 30001).2.1 (by decide),
   ((c2_amended CONFIG).2 (by decide) 300001).2.2 (by decide)⟩

/-! ## Claim C4 — provider client error handling -/

/-- C4: each provider client raises if and only if the underlying SDK call
raised an exception of that backend's designated escalation (quota/billing)
class (`except APIError: raise e`, checked before `except Exception`); any
other exception is converted into the provider-labeled error string, and a
successful call returns the provider-labeled review text. -/
theorem c4_confirmed (o : SdkOutcome) :
    ((∃ e, ask_gemini o = .raised e) ↔ ∃ m, o = .raises (.apiError m)) ∧
    ((∃ e, ask_openai o = .raised e) ↔ ∃ m, o = .raises (.apiError m)) ∧
    ((∃ e, ask_claude o = .raised e) ↔ ∃ m, o = .raises (.apiError m)) ∧
    (∀ m, o = .raises (.otherExc m) →
      ask_gemini o = .ret (strL "## ♊ Gemini (Error)\nエラーが発生しました: " ++ m) ∧
      ask_openai o = .ret (strL "## 🤖 ChatGPT (Error)\nエラーが発生しました: " ++ m) ∧
      ask_claude o = .ret (strL "## 🧠 Claude (Error)\nエラーが発生しました: " ++ m)) ∧
    (∀ t, o = .ok t →
      ask_gemini o = .ret (strL "## ♊ Gemini\n" ++ t) ∧
      ask_openai o = .ret (strL "## 🤖 ChatGPT\n" ++ t) ∧
      ask_claude o = .ret (strL "## 🧠 Claude\n" ++ t)) := by
  rcases o with t | e
  · refine ⟨?_, ?_, ?_, ?_, ?_⟩ <;>
      simp [ask_gemini, ask_openai, ask_claude, run_provider_try]
  · rcases e with m | m <;>
      refine ⟨?_, ?_, ?_, ?_, ?_⟩ <;>
      simp [ask_gemini, ask_openai, ask_claude, run_provider_try, isApiErrorExc,
        excMsg]

/-- C4 witness: a Gemini escalation exception propagates; an ordinary
ChatGPT exception is returned as the labeled error string. -/
theorem c4_witness :
    (∃ e, ask_gemini (.raises (.apiError (strL "quota"))) = .raised e) ∧
    ask_openai (.raises (.otherExc (strL "conn"))) =
      .ret (strL "## 🤖 ChatGPT (Error)\nエラーが発生しました: " ++ strL "conn") :=
  ⟨(c4_confirmed (.raises (.apiError (strL "quota")))).1.mpr ⟨strL "quota", rfl⟩,
   ((c4_confirmed (.raises (.otherExc (strL "conn")))).2.2.2.1 (strL "conn")
      rfl).2.1⟩

/-! ## Claim C6 — summarizer fallback -/

/-- C6: when the summarizer call raises, `summarize_reviews` returns the
explicit summarization-failed header followed by the separator-joined
concatenation of all inputs, so every input (in particular its provider
label) is contained in the fallback text. -/
theorem c6_confirmed (cfg : ReviewConfig) (e : PyExc)
    (rs : List (List Char)) (h : rs ≠ []) :
    summarize_reviews cfg (.raises e) rs =
      strL "# 👑 統合AIレビュー (Error)\n統合処理中にエラーが発生しました: " ++
        excMsg e ++ strL "\n\n" ++ joinSep summary_sep rs ∧
    ∀ r ∈ rs, r <:+: summarize_reviews cfg (.raises e) rs := by
  refine ⟨rfl, ?_⟩
  intro r hr
  show r <:+:
    strL "# 👑 統合AIレビュー (Error)\n統合処理中にエラーが発生しました: " ++
      excMsg e ++ strL "\n\n" ++ joinSep summary_sep rs
  have h1 := mem_partOf_joinSep summary_sep rs r hr
  exact partOf_appendRight
    (strL "# 👑 統合AIレビュー (Error)\n統合処理中にエラーが発生しました: " ++
      excMsg e ++ strL "\n\n") h1

/-- C6 witness: with two labeled review texts and a failing summarizer, the
first input is contained in the fallback output. -/
theorem c6_witness :
    strL "## ♊ Gemini\nok1" <:+:
      summarize_reviews CONFIG (.raises (.otherExc (strL "boom")))
        [strL "## ♊ Gemini\nok1", strL "## 🤖 ChatGPT\nok2"] :=
  (c6_confirmed CONFIG (.otherExc (strL "boom"))
      [strL "## ♊ Gemini\nok1", strL "## 🤖 ChatGPT\nok2"]
      (by simp)).2 (strL "## ♊ Gemini\nok1") (by simp)

/-! ## Claim C7 — idempotent replacement of the report comment -/

/-- Membership characterization of the deletion loop: a comment survives
exactly when it does not contain the header marker or its deletion raised
(and was skipped by the `try/except`). -/
theorem deletePass_mem (cs : List IssueComment) (c : IssueComment) :
    c ∈ deletePass cs ↔
      c ∈ cs ∧ (¬ HEADER_IDENTIFIER <:+: c.body ∨ c.deleteFails = true) := by
  induction cs with
  | nil => simp [deletePass]
  | cons d ds ih =>
    show c ∈ (if HEADER_IDENTIFIER <:+: d.body then
        (if d.deleteFails then d :: deletePass ds else deletePass ds)
      else d :: deletePass ds) ↔ _
    split_ifs with h1 h2
    · constructor
      · intro hm
        rcases List.mem_cons.mp hm with rfl | hm
        · exact ⟨List.mem_cons_self _ _, Or.inr h2⟩
        · have := ih.mp hm
          exact ⟨List.mem_cons_of_mem _ this.1, this.2⟩
      · rintro ⟨hm, hp⟩
        rcases List.mem_cons.mp hm with rfl | hm
        · exact List.mem_cons_self _ _
        · exact List.mem_cons_of_mem _ (ih.mpr ⟨hm, hp⟩)
    · constructor
      · intro hm
        have := ih.mp hm
        exact ⟨List.mem_cons_of_mem _ this.1, this.2⟩
      · rintro ⟨hm, hp⟩
        rcases List.mem_cons.mp hm with rfl | hm
        · rcases hp with hp | hp
          · exact absurd h1 hp
          · exact absurd hp (by simp [h2])
        · exact ih.mpr ⟨hm, hp⟩
    · constructor
      · intro hm
        rcases List.mem_cons.mp hm with rfl | hm
        · exact ⟨List.mem_cons_self _ _, Or.inl h1⟩
        · have := ih.mp hm
          exact ⟨List.mem_cons_of_mem _ this.1, this.2⟩
      · rintro ⟨hm, hp⟩
        rcases List.mem_cons.mp hm with rfl | hm
        · exact List.mem_cons_self _ _
        · exact List.mem_cons_of_mem _ (ih.mpr ⟨hm, hp⟩)

/-- C7: publishing first runs the deletion loop over the existing comments
and then posts exactly one new report comment.  Every existing comment
containing the header marker whose deletion succeeds is removed; a comment
whose deletion fails is skipped (it survives) without stopping the loop, so
every other matching comment is still removed and the new comment is still
posted; comments without the marker are untouched. -/
theorem c7_confirmed (cs : List IssueComment) (newC : IssueComment) :
    (∀ c ∈ cs, HEADER_IDENTIFIER <:+: c.body → c.deleteFails = false →
      c ∉ deletePass cs) ∧
    (∀ c ∈ cs, ¬ HEADER_IDENTIFIER <:+: c.body → c ∈ deletePass cs) ∧
    (∀ c ∈ cs, c.deleteFails = true → c ∈ deletePass cs) ∧
    publishReport cs newC = deletePass cs ++ [newC] := by
  refine ⟨?_, ?_, ?_, rfl⟩
  · intro c _hc hmark hok hmem
    rcases (deletePass_mem cs c).mp hmem with ⟨_, h | h⟩
    · exact h hmark
    · rw [hok] at h
      cases h
  · intro c hc hmark
    exact (deletePass_mem cs c).mpr ⟨hc, Or.inl hmark⟩
  · intro c hc hf
    exact (deletePass_mem cs c).mpr ⟨hc, Or.inr hf⟩

/-- C7 witness: of two prior comments containing the header marker, the one
whose deletion succeeds is removed, the one whose deletion fails survives
without preventing the other's removal, and the new comment is posted after
the deletion pass. -/
theorem c7_witness :
    (⟨1, strL "# 👑 統合AIレビュー (by gemini-2.5-pro)\n旧レポート1", false⟩ :
        IssueComment) ∉
      deletePass
        [⟨1, strL "# 👑 統合AIレビュー (by gemini-2.5-pro)\n旧レポート1", false⟩,
         ⟨2, strL "前置き # 👑 統合AIレビュー 旧レポート2", true⟩,
         ⟨3, strL "ただのコメント", false⟩] ∧
    (⟨2, strL "前置き # 👑 統合AIレビュー 旧レポート2", true⟩ : IssueComment) ∈
      deletePass
        [⟨1, strL "# 👑 統合AIレビュー (by gemini-2.5-pro)\n旧レポート1", false⟩,
         ⟨2, strL "前置き # 👑 統合AIレビュー 旧レポート2", true⟩,
         ⟨3, strL "ただのコメント", false⟩] ∧
    publishReport
        [⟨1, strL "# 👑 統合AIレビュー (by gemini-2.5-pro)\n旧レポート1", false⟩,
         ⟨2, strL "前置き # 👑 統合AイレビューX", true⟩,
         ⟨3, strL "ただのコメント", false⟩] ⟨9, strL "新レポート", false⟩ =
      deletePass
        [⟨1, strL "# 👑 統合AIレビュー (by gemini-2.5-pro)\n旧レポート1", false⟩,
         ⟨2, strL "前置き # 👑 統合AイレビューX", true⟩,
         ⟨3, strL "ただのコメント", false⟩] ++ [⟨9, strL "新レポート", false⟩] :=
  ⟨(c7_confirmed _ ⟨9, strL "新レポート", false⟩).1 _ (by decide) (by decide) rfl,
   (c7_confirmed _ ⟨9, strL "新レポート", false⟩).2.2.1 _ (by decide) rfl,
   (c7_confirmed _ ⟨9, strL "新レポート", false⟩).2.2.2⟩

/-! ## Claim C9 — diff collection filters -/

/-- `filename.endswith(tuple(l))` is a suffix test against each entry. -/
theorem exclude_any_iff (l : List (List Char)) (fn : List Char) :
    l.any (fun d => d.isSuffixOf fn) = true ↔ ∃ d ∈ l, d <:+ fn := by
  simp [List.any_eq_true, List.isSuffixOf_iff_suffix]

/-- C9: `get_diff` skips a file whose filename ends with a denylist entry
(a suffix match, not an exact-name match), skips a filename ending with a
binary/lockfile extension, skips a file whose patch is absent or empty, and
otherwise emits the file's entry followed by the rest — i.e. the surviving
`(filename, patch)` pairs are concatenated in input order. -/
theorem c9_confirmed (f : PRFile) (fs : List PRFile) :
    ((∃ d ∈ files_to_exclude, d <:+ f.filename) →
      get_diff (f :: fs) = get_diff fs) ∧
    ((∃ d ∈ binary_extensions, d <:+ f.filename) →
      get_diff (f :: fs) = get_diff fs) ∧
    ((f.patch = none ∨ f.patch = some []) → get_diff (f :: fs) = get_diff fs) ∧
    (∀ p, f.patch = some p → p ≠ [] →
      (∀ d ∈ files_to_exclude, ¬ d <:+ f.filename) →
      (∀ d ∈ binary_extensions, ¬ d <:+ f.filename) →
      get_diff (f :: fs) = diff_entry f.filename p ++ get_diff fs) := by
  have unf : get_diff (f :: fs) =
      if files_to_exclude.any (fun d => d.isSuffixOf f.filename) then get_diff fs
      else if binary_extensions.any (fun d => d.isSuffixOf f.filename) then
        get_diff fs
      else
        match f.patch with
        | none => get_diff fs
        | some [] => get_diff fs
        | some p => diff_entry f.filename p ++ get_diff fs := rfl
  refine ⟨?_, ?_, ?_, ?_⟩
  · intro h
    rw [unf, if_pos ((exclude_any_iff _ _).mpr h)]
  · intro h
    by_cases h1 : files_to_exclude.any (fun d => d.isSuffixOf f.filename) = true
    · rw [unf, if_pos h1]
    · rw [unf, if_neg h1, if_pos ((exclude_any_iff _ _).mpr h)]
  · intro h
    by_cases h1 : files_to_exclude.any (fun d => d.isSuffixOf f.filename) = true
    · rw [unf, if_pos h1]
    · by_cases h2 : binary_extensions.any (fun d => d.isSuffixOf f.filename) = true
      · rw [unf, if_neg h1, if_pos h2]
      · rcases h with h | h <;> rw [unf, if_neg h1, if_neg h2, h]
  · intro p hp hne hd hb
    have h1 : ¬ files_to_exclude.any (fun d => d.isSuffixOf f.filename) = true := by
      rw [exclude_any_iff]
      rintro ⟨d, hdm, hds⟩
      exact hd d hdm hds
    have h2 : ¬ binary_extensions.any (fun d => d.isSuffixOf f.filename) = true := by
      rw [exclude_any_iff]
      rintro ⟨d, hdm, hds⟩
      exact hb d hdm hds
    rcases p with _ | ⟨c, p'⟩
    · exact absurd rfl hne
    · rw [unf, if_neg h1, if_neg h2, hp]

/-- C9 witness: `config/prod.secrets.yaml` is skipped by the suffix match on
`secrets.yaml` even though its name is not exactly `secrets.yaml`, while an
ordinary source file with a nonempty patch is emitted. -/
theorem c9_witness :
    get_diff [⟨strL "config/prod.secrets.yaml", some (strL "+k: v")⟩] = [] ∧
    get_diff [⟨strL "src/app.py", some (strL "+print(1)")⟩] =
      diff_entry (strL "src/app.py") (strL "+print(1)") ++ [] :=
  ⟨(c9_confirmed ⟨strL "config/prod.secrets.yaml", some (strL "+k: v")⟩ []).1
      ⟨strL "secrets.yaml", by decide, by decide⟩,
   (c9_confirmed ⟨strL "src/app.py", some (strL "+print(1)")⟩ []).2.2.2
      (strL "+print(1)") rfl (by decide) (by decide) (by decide)⟩

/-! ## Claim C1 — behavior when every invoked provider fails -/

/-- C1 counterexample: token count 100 is in the Full tier, all three
invoked providers fail (each raises an ordinary, non-escalation exception,
so no provider produces a Success), yet `select_and_run_models` returns the
three labeled error entries — a non-empty sequence, not the empty sequence
the claim asserts. -/
theorem c1_counterexample :
    select_and_run_models CONFIG 100
      (.raises (.otherExc (strL "g down"))) (.raises (.otherExc (strL "o down")))
      (.raises (.otherExc (strL "c down"))) ≠ [] := by
  decide

/-- C1 (amended): `select_and_run_models` never raises; in the Full tier it
returns the empty sequence when every invoked provider raises an escalation
exception, but providers failing with ordinary errors contribute labeled
error entries (so the result is then non-empty), and in the CostOptimized
tier the appended degradation marker keeps the result non-empty no matter
how the single invoked provider fails. -/
theorem c1_amended (cfg : ReviewConfig) (tc : Nat) (mg mo mc : List Char) :
    ((tc : Int) ≤ cfg.small_diff_threshold →
      select_and_run_models cfg tc (.raises (.apiError mg))
        (.raises (.apiError mo)) (.raises (.apiError mc)) = []) ∧
    ((tc : Int) ≤ cfg.small_diff_threshold →
      select_and_run_models cfg tc (.raises (.otherExc mg))
        (.raises (.otherExc mo)) (.raises (.otherExc mc)) =
        [strL "## ♊ Gemini (Error)\nエラーが発生しました: " ++ mg,
         strL "## 🤖 ChatGPT (Error)\nエラーが発生しました: " ++ mo,
         strL "## 🧠 Claude (Error)\nエラーが発生しました: " ++ mc]) ∧
    (¬ (tc : Int) ≤ cfg.small_diff_threshold →
      (tc : Int) ≤ cfg.flash_only_max_tokens →
      ∀ og, select_and_run_models cfg tc og (.raises (.apiError mo))
          (.raises (.apiError mc)) ≠ []) := by
  refine ⟨?_, ?_, ?_⟩
  · intro h
    simp [select_and_run_models, h, ask_gemini, ask_openai, ask_claude,
      run_provider_try, isApiErrorExc, gather_filter]
  · intro h
    simp [select_and_run_models, h, ask_gemini, ask_openai, ask_claude,
      run_provider_try, isApiErrorExc, excMsg, gather_filter]
  · intro h1 h2 og
    rcases hog : ask_gemini og with s | e <;>
      simp [select_and_run_models, h1, h2, hog, gather_filter]

/-- C1 amended witness: in the Full tier at the default configuration all
three providers escalating yields the empty sequence, while the
CostOptimized tier yields a non-empty sequence even though its only
provider escalated. -/
theorem c1_witness :
    select_and_run_models CONFIG 100
      (.raises (.apiError (strL "gq"))) (.raises (.apiError (strL "oq")))
      (.raises (.apiError (strL "cq"))) = [] ∧
    select_and_run_models CONFIG 150000
      (.raises (.apiError (strL "gq"))) (.ok (strL "unused"))
      (.ok (strL "unused")) ≠ [] :=
  ⟨(c1_amended CONFIG 100 (strL "gq") (strL "oq") (strL "cq")).1 (by decide),
   (c1_amended CONFIG 150000 (strL "gq") (strL "x") (strL "y")).2.2
      (by decide) (by decide) (.raises (.apiError (strL "gq")))⟩

/-! ## Claim C3 — Full tier, one failure among three providers -/

/-- C3: in the Full tier, when exactly one provider fails (returning its
labeled Failure entry) and the other two succeed, the result has exactly
three entries in invocation order (Gemini, OpenAI, Claude) with the failing
provider's entry being the labeled error string; stated for the failure at
each of the three positions. -/
theorem c3_confirmed (cfg : ReviewConfig) (tc : Nat) (t1 t2 e : List Char)
    (h : (tc : Int) ≤ cfg.small_diff_threshold) :
    select_and_run_models cfg tc (.raises (.otherExc e)) (.ok t1) (.ok t2) =
      [strL "## ♊ Gemini (Error)\nエラーが発生しました: " ++ e,
       strL "## 🤖 ChatGPT\n" ++ t1,
       strL "## 🧠 Claude\n" ++ t2] ∧
    select_and_run_models cfg tc (.ok t1) (.raises (.otherExc e)) (.ok t2) =
      [strL "## ♊ Gemini\n" ++ t1,
       strL "## 🤖 ChatGPT (Error)\nエラーが発生しました: " ++ e,
       strL "## 🧠 Claude\n" ++ t2] ∧
    select_and_run_models cfg tc (.ok t1) (.ok t2) (.raises (.otherExc e)) =
      [strL "## ♊ Gemini\n" ++ t1,
       strL "## 🤖 ChatGPT\n" ++ t2,
       strL "## 🧠 Claude (Error)\nエラーが発生しました: " ++ e] := by
  refine ⟨?_, ?_, ?_⟩ <;>
    simp [select_and_run_models, h, ask_gemini, ask_openai, ask_claude,
      run_provider_try, isApiErrorExc, excMsg, gather_filter]

/-- C3 witness: concrete Full-tier run in which OpenAI fails and the other
two succeed; the result is the three entries in invocation order. -/
theorem c3_witness :
    select_and_run_models CONFIG 100 (.ok (strL "LGTM"))
      (.raises (.otherExc (strL "429"))) (.ok (strL "指摘事項なし")) =
      [strL "## ♊ Gemini\n" ++ strL "LGTM",
       strL "## 🤖 ChatGPT (Error)\nエラーが発生しました: " ++ strL "429",
       strL "## 🧠 Claude\n" ++ strL "指摘事項なし"] :=
  (c3_confirmed CONFIG 100 (strL "LGTM") (strL "指摘事項なし") (strL "429")
    (by decide)).2.1

/-! ## Claim C8 — CostOptimized tier with an escalating provider -/

/-- C8: in the CostOptimized tier the degradation marker is appended to the
raw gathered results before exceptions are filtered out, so even when the
single invoked provider raises an escalation exception the result is the
one-element sequence holding only the marker, and `main` then proceeds to
summarization rather than posting the all-providers-failed notice. -/
theorem c8_confirmed (cfg : ReviewConfig) (tc : Nat) (m : List Char)
    (oo oc : SdkOutcome)
    (h1 : ¬ (tc : Int) ≤ cfg.small_diff_threshold)
    (h2 : (tc : Int) ≤ cfg.flash_only_max_tokens) :
    select_and_run_models cfg tc (.raises (.apiError m)) oo oc =
      [cost_message tc] ∧
    main_after_run (select_and_run_models cfg tc (.raises (.apiError m)) oo oc) =
      .run_summarizer := by
  have hsel : select_and_run_models cfg tc (.raises (.apiError m)) oo oc =
      [cost_message tc] := by
    simp [select_and_run_models, h1, h2, ask_gemini, run_provider_try,
      isApiErrorExc, gather_filter]
  refine ⟨hsel, ?_⟩
  rw [hsel]
  simp [main_after_run]

/-- C8 witness: at the default thresholds a 150000-token diff with Gemini
escalating yields exactly the marker entry and the pipeline continues to the
summarizer. -/
theorem c8_witness :
    select_and_run_models CONFIG 150000 (.raises (.apiError (strL "quota")))
      (.ok (strL "u1")) (.ok (strL "u2")) = [cost_message 150000] ∧
    main_after_run
      (select_and_run_models CONFIG 150000 (.raises (.apiError (strL "quota")))
        (.ok (strL "u1")) (.ok (strL "u2"))) = .run_summarizer :=
  c8_confirmed CONFIG 150000 (strL "quota") (.ok (strL "u1")) (.ok (strL "u2"))
    (by decide) (by decide)

/-! ## Greedy-run lemmas -/

theorem runCount_le (cls : Char → Bool) : ∀ s : List Char, runCount cls s ≤ s.length
  | [] => Nat.le_refl 0
  | c :: cs => by
    show (if cls c then runCount cls cs + 1 else 0) ≤ cs.length + 1
    split_ifs
    · exact Nat.succ_le_succ (runCount_le cls cs)
    · exact Nat.zero_le _

theorem take_runCount_all (cls : Char → Bool) :
    ∀ s : List Char, (s.take (runCount cls s)).all cls = true
  | [] => rfl
  | c :: cs => by
    show ((c :: cs).take (if cls c then runCount cls cs + 1 else 0)).all cls = true
    split_ifs with h
    · simp only [List.take_succ_cons, List.all_cons, h, Bool.true_and]
      exact take_runCount_all cls cs
    · rfl

theorem runCount_append_all (cls : Char → Bool) {body : List Char}
    (t : List Char) (h : body.all cls = true) :
    runCount cls (body ++ t) = body.length + runCount cls t := by
  induction body with
  | nil => simp
  | cons c cs ih =>
    simp only [List.all_cons, Bool.and_eq_true] at h
    rcases h with ⟨hc, hcs⟩
    show (if cls c then runCount cls (cs ++ t) + 1 else 0) = cs.length + 1 + runCount cls t
    rw [if_pos hc, ih hcs]
    omega

theorem runCount_all_eq (cls : Char → Bool) {body : List Char}
    (h : body.all cls = true) : runCount cls body = body.length := by
  have := runCount_append_all cls [] h
  simpa using this

theorem runCount_append_stop (cls : Char → Bool) {body : List Char}
    {c : Char} (t : List Char) (h : body.all cls = true) (hc : cls c = false) :
    runCount cls (body ++ c :: t) = body.length := by
  rw [runCount_append_all cls _ h]
  show body.length + (if cls c then runCount cls t + 1 else 0) = body.length
  rw [if_neg (by simp [hc])]
  omega

theorem drop_runCount_head (cls : Char → Bool) :
    ∀ (s : List Char) {c : Char} {t : List Char},
      s.drop (runCount cls s) = c :: t → cls c = false
  | [], c, t => by intro h; cases h
  | d :: ds, c, t => by
    intro h
    by_cases hd : cls d = true
    · have : (d :: ds).drop (runCount cls (d :: ds)) = ds.drop (runCount cls ds) := by
        show (d :: ds).drop (if cls d then runCount cls ds + 1 else 0) = _
        rw [if_pos hd]
        rfl
      rw [this] at h
      exact drop_runCount_head cls ds h
    · have : (d :: ds).drop (runCount cls (d :: ds)) = d :: ds := by
        show (d :: ds).drop (if cls d then runCount cls ds + 1 else 0) = _
        rw [if_neg hd]
        rfl
      rw [this] at h
      cases h
      simpa using hd

/-- From `l.isPrefixOf s` recover `s = l ++ s.drop l.length`. -/
theorem eq_append_drop_of_isPre {l s : List Char} (h : l.isPrefixOf s = true) :
    s = l ++ s.drop l.length := by
  obtain ⟨t, rfl⟩ := List.isPrefixOf_iff_prefix.mp h
  rw [List.drop_left]

/-! ## SimplePattern lemmas -/

theorem all_take (cls : Char → Bool) {xs : List Char} (k : Nat)
    (h : xs.all cls = true) : (xs.take k).all cls = true := by
  rw [List.all_eq_true] at h ⊢
  intro x hx
  exact h x (List.take_subset _ _ hx)

theorem pre_eq_of_len {l l' s : List Char} (h : l <+: s) (h' : l' <+: s)
    (hlen : l.length = l'.length) : l = l' := by
  have e1 := List.prefix_iff_eq_take.mp h
  have e2 := List.prefix_iff_eq_take.mp h'
  rw [e1, e2, hlen]

/-- Unfolds the full-string match predicate of a `SimplePattern`. -/
theorem spIsMat_iff (p : SimplePattern) (m : List Char) :
    spIsMat p m = true ↔
      ∃ l ∈ p.lits, l.isPrefixOf m = true ∧ (m.drop l.length).all p.cls = true ∧
        p.lo ≤ (m.drop l.length).length ∧
        (∀ h0, p.hi = some h0 → (m.drop l.length).length ≤ h0) := by
  rcases p with ⟨lits, cls, lo, hi⟩
  cases hi with
  | none =>
    simp [spIsMat, List.any_eq_true, Bool.and_eq_true, and_assoc]
  | some h0 =>
    simp [spIsMat, List.any_eq_true, Bool.and_eq_true, and_assoc]

theorem sp_sound (p : SimplePattern) :
    ∀ s m r, spMatchAt p s = some (m, r) → s = m ++ r ∧ spIsMat p m = true := by
  intro s m r h
  unfold spMatchAt at h
  rcases hf : p.lits.find? (fun l => l.isPrefixOf s) with _ | l
  · rw [hf] at h
    cases h
  · rw [hf] at h
    dsimp only at h
    have hmem : l ∈ p.lits := List.mem_of_find?_eq_some hf
    have hpre : l.isPrefixOf s = true := by
      have := List.find?_some hf
      simpa using this
    have hs : s = l ++ s.drop l.length := eq_append_drop_of_isPre hpre
    rcases hhi : p.hi with _ | h0 <;> rw [hhi] at h <;> dsimp only at h
    · by_cases hlo : p.lo ≤ runCount p.cls (s.drop l.length)
      · rw [if_pos hlo] at h
        injection h with h1
        injection h1 with hm hr
        subst hm hr
        constructor
        · conv_lhs => rw [hs]
          rw [List.append_assoc, List.take_append_drop]
        · rw [spIsMat_iff]
          refine ⟨l, hmem, ?_, ?_, ?_, ?_⟩
          · exact List.isPrefixOf_iff_prefix.mpr ⟨_, rfl⟩
          · rw [List.drop_left]
            exact take_runCount_all _ _
          · rw [List.drop_left, List.length_take]
            have := runCount_le p.cls (s.drop l.length)
            omega
          · intro h0 hh
            rw [hhi] at hh
            cases hh
      · rw [if_neg hlo] at h
        cases h
    · by_cases hlo : p.lo ≤ min (runCount p.cls (s.drop l.length)) h0
      · rw [if_pos hlo] at h
        injection h with h1
        injection h1 with hm hr
        subst hm hr
        constructor
        · conv_lhs => rw [hs]
          rw [List.append_assoc, List.take_append_drop]
        · rw [spIsMat_iff]
          refine ⟨l, hmem, ?_, ?_, ?_, ?_⟩
          · exact List.isPrefixOf_iff_prefix.mpr ⟨_, rfl⟩
          · rw [List.drop_left]
            have hk : min (runCount p.cls (s.drop l.length)) h0 ≤
                runCount p.cls (s.drop l.length) := Nat.min_le_left _ _
            have h1 : (s.drop l.length).take (min (runCount p.cls (s.drop l.length)) h0) =
                ((s.drop l.length).take (runCount p.cls (s.drop l.length))).take
                  (min (runCount p.cls (s.drop l.length)) h0) := by
              rw [List.take_take, Nat.min_eq_left hk]
            rw [h1]
            exact all_take _ _ (take_runCount_all _ _)
          · rw [List.drop_left, List.length_take]
            have h2 := runCount_le p.cls (s.drop l.length)
            omega
          · intro h0' hh
            rw [hhi] at hh
            injection hh with hh
            subst hh
            rw [List.drop_left, List.length_take]
            omega
      · rw [if_neg hlo] at h
        cases h

theorem sp_complete (p : SimplePattern) (hwf : SPWf p) :
    ∀ m r, spIsMat p m = true → spMatchAt p (m ++ r) ≠ none := by
  intro m r hm
  obtain ⟨l, hmem, hpre, hall, hlo, hhi⟩ := (spIsMat_iff p m).mp hm
  have hmdec : m = l ++ m.drop l.length := eq_append_drop_of_isPre hpre
  have hpre2 : l.isPrefixOf (m ++ r) = true := by
    rw [List.isPrefixOf_iff_prefix]
    exact ⟨m.drop l.length ++ r, by rw [← List.append_assoc, ← hmdec]⟩
  rcases hf2 : p.lits.find? (fun l' => l'.isPrefixOf (m ++ r)) with _ | l'
  · exfalso
    have := List.find?_eq_none.mp hf2 l hmem
    simp [hpre2] at this
  · have hmem' : l' ∈ p.lits := List.mem_of_find?_eq_some hf2
    have hpre' : l'.isPrefixOf (m ++ r) = true := by
      have := List.find?_some hf2
      simpa using this
    have hll : l' = l :=
      pre_eq_of_len (List.isPrefixOf_iff_prefix.mp hpre')
        (List.isPrefixOf_iff_prefix.mp hpre2)
        (hwf.2 l' hmem' l hmem)
    subst hll
    have hdrop : (m ++ r).drop l'.length = m.drop l'.length ++ r := by
      conv_lhs => rw [hmdec, List.append_assoc, List.drop_left]
    have hrun : runCount p.cls ((m ++ r).drop l'.length) =
        (m.drop l'.length).length + runCount p.cls r := by
      rw [hdrop, runCount_append_all p.cls r hall]
    unfold spMatchAt
    rw [hf2]
    dsimp only
    rcases hhi2 : p.hi with _ | h0 <;> dsimp only
    · rw [if_pos (by omega)]
      simp
    · have hb := hhi h0 hhi2
      rw [if_pos (by omega)]
      simp

theorem sp_nonempty (p : SimplePattern) (hwf : SPWf p) :
    ∀ m, spIsMat p m = true → m ≠ [] := by
  intro m hm
  obtain ⟨l, hmem, hpre, -, -, -⟩ := (spIsMat_iff p m).mp hm
  have := eq_append_drop_of_isPre hpre
  intro h
  rw [h] at this
  have hl := hwf.1 l hmem
  cases l with
  | nil => exact hl rfl
  | cons c cs => cases this

theorem sp_no_char (p : SimplePattern) (b : Char)
    (hb : ∀ l ∈ p.lits, b ∉ l) (hcls : p.cls b = false) :
    ∀ m, spIsMat p m = true → b ∉ m := by
  intro m hm hbm
  obtain ⟨l, hmem, hpre, hall, -, -⟩ := (spIsMat_iff p m).mp hm
  have hmdec := eq_append_drop_of_isPre hpre
  rw [hmdec] at hbm
  rcases List.mem_append.mp hbm with h | h
  · exact hb l hmem h
  · rw [List.all_eq_true] at hall
    have := hall b h
    rw [hcls] at this
    cases this

theorem sp_nosent (p : SimplePattern)
    (hsent : ∀ l ∈ p.lits, ∃ c, c ∈ l ∧ c ∉ REDACTED_TEXT) :
    ∀ m, spIsMat p m = true → ¬ m <:+: REDACTED_TEXT := by
  intro m hm hinf
  obtain ⟨l, hmem, hpre, -, -, -⟩ := (spIsMat_iff p m).mp hm
  obtain ⟨c, hcl, hcs⟩ := hsent l hmem
  have hmdec := eq_append_drop_of_isPre hpre
  obtain ⟨u, v, hEq⟩ := hinf
  apply hcs
  rw [← hEq]
  have hcm : c ∈ m := by
    rw [hmdec]
    exact List.mem_append.mpr (Or.inl hcl)
  exact List.mem_append.mpr (Or.inl (List.mem_append.mpr (Or.inr hcm)))

/-- Builds `GoodPat` for a well-formed `SimplePattern` whose alphabet avoids
the square brackets and whose literals each contain a character not occurring
in the sentinel. -/
theorem spGood (p : SimplePattern) (hwf : SPWf p)
    (hlitL : ∀ l ∈ p.lits, '[' ∉ l) (hclsL : p.cls '[' = false)
    (hlitR : ∀ l ∈ p.lits, ']' ∉ l) (hclsR : p.cls ']' = false)
    (hsent : ∀ l ∈ p.lits, ∃ c, c ∈ l ∧ c ∉ REDACTED_TEXT) :
    GoodPat (spRePat p) where
  sound := sp_sound p
  nonempty := sp_nonempty p hwf
  complete := fun m r hm => sp_complete p hwf m r hm
  alphL := sp_no_char p '[' hlitL hclsL
  alphR := sp_no_char p ']' hlitR hclsR
  nosent := sp_nosent p hsent

/-! ## The eight simple patterns are good -/

theorem awsPat_good : GoodPat (spRePat awsPat) :=
  spGood awsPat ⟨by decide, by decide⟩ (by decide) (by decide) (by decide)
    (by decide) (by decide)

theorem ghpPat_good : GoodPat (spRePat ghpPat) :=
  spGood ghpPat ⟨by decide, by decide⟩ (by decide) (by decide) (by decide)
    (by decide) (by decide)

theorem ghsPat_good : GoodPat (spRePat ghsPat) :=
  spGood ghsPat ⟨by decide, by decide⟩ (by decide) (by decide) (by decide)
    (by decide) (by decide)

theorem slackPat_good : GoodPat (spRePat slackPat) :=
  spGood slackPat ⟨by decide, by decide⟩ (by decide) (by decide) (by decide)
    (by decide) (by decide)

theorem openaiPat_good : GoodPat (spRePat openaiPat) :=
  spGood openaiPat ⟨by decide, by decide⟩ (by decide) (by decide) (by decide)
    (by decide) (by decide)

theorem stripePat_good : GoodPat (spRePat stripePat) :=
  spGood stripePat ⟨by decide, by decide⟩ (by decide) (by decide) (by decide)
    (by decide) (by decide)

theorem pkPat_good : GoodPat (spRePat pkPat) :=
  spGood pkPat ⟨by decide, by decide⟩ (by decide) (by decide) (by decide)
    (by decide) (by decide)

theorem googlePat_good : GoodPat (spRePat googlePat) :=
  spGood googlePat ⟨by decide, by decide⟩ (by decide) (by decide) (by decide)
    (by decide) (by decide)

/-! ## JWT pattern lemmas -/

theorem space_low_or_high {c : Char} (h : spaceChar c = true) :
    c ≤ ' ' ∨ '\x85' ≤ c := by
  simp only [spaceChar, Bool.or_eq_true, Bool.and_eq_true, decide_eq_true_eq,
    beq_iff_eq] at h
  rcases h with
    (((((((((((⟨h1, h2⟩ | h) | ⟨h1, h2⟩) | h) | h) | h) | ⟨h1, h2⟩) | h) | h) |
      h) | h) | h)
  · exact Or.inl (le_trans h2 (by decide))
  · subst h; exact Or.inl (by decide)
  · exact Or.inl (le_trans h2 (by decide))
  · subst h; exact Or.inr (by decide)
  · subst h; exact Or.inr (by decide)
  · subst h; exact Or.inr (by decide)
  · exact Or.inr (le_trans (by decide) h1)
  · subst h; exact Or.inr (by decide)
  · subst h; exact Or.inr (by decide)
  · subst h; exact Or.inr (by decide)
  · subst h; exact Or.inr (by decide)
  · subst h; exact Or.inr (by decide)

theorem token_bounds {c : Char} (h : tokenChar c = true) :
    '-' ≤ c ∧ c ≤ 'z' := by
  simp only [tokenChar, alnumChar, digitChar, lowerChar, upperChar,
    Bool.or_eq_true, Bool.and_eq_true, decide_eq_true_eq, beq_iff_eq] at h
  rcases h with (((⟨h1, h2⟩ | ⟨h1, h2⟩) | ⟨h1, h2⟩) | h) | h
  · exact ⟨le_trans (by decide) h1, le_trans h2 (by decide)⟩
  · exact ⟨le_trans (by decide) h1, h2⟩
  · exact ⟨le_trans (by decide) h1, le_trans h2 (by decide)⟩
  · subst h; exact ⟨by decide, by decide⟩
  · subst h; exact ⟨by decide, by decide⟩

theorem space_token_disjoint (c : Char) (h : spaceChar c = true) :
    tokenChar c = false := by
  cases ht : tokenChar c
  · rfl
  · exfalso
    obtain ⟨hlo, hhi⟩ := token_bounds ht
    rcases space_low_or_high h with hle | hge
    · exact absurd (le_trans hlo hle) (by decide)
    · exact absurd (le_trans hge hhi) (by decide)

theorem token_not_space (c : Char) (h : tokenChar c = true) :
    spaceChar c = false := by
  cases hs : spaceChar c
  · rfl
  · rw [space_token_disjoint c hs] at h
    cases h

theorem take_run_ne_nil (cls : Char → Bool) (s : List Char)
    (h : runCount cls s ≠ 0) : s.take (runCount cls s) ≠ [] := by
  have h1 := runCount_le cls s
  intro he
  have h2 := congrArg List.length he
  rw [List.length_take] at h2
  simp only [List.length_nil] at h2
  rcases Nat.min_eq_zero_iff.mp h2 with h3 | h3 <;> omega

/-- Inversion of a successful JWT match: the matched text decomposes into the
literal, a nonempty whitespace run, and three nonempty dot-separated token
runs; the remainder follows the match in the input and starts with a
non-token character. -/
theorem jwt_inv {s m r : List Char} (h : jwtMatchAt s = some (m, r)) :
    ∃ ws t1 t2 t3 : List Char,
      ws.all spaceChar = true ∧ ws ≠ [] ∧
      t1.all tokenChar = true ∧ t1 ≠ [] ∧
      t2.all tokenChar = true ∧ t2 ≠ [] ∧
      t3.all tokenChar = true ∧ t3 ≠ [] ∧
      m = bearerLit ++ ws ++ (t1 ++ '.' :: (t2 ++ '.' :: t3)) ∧
      s = m ++ r ∧
      (∀ c r', r = c :: r' → tokenChar c = false) := by
  unfold jwtMatchAt at h
  split at h
  case isFalse => cases h
  case isTrue hpre =>
  dsimp only at h
  split at h
  case isTrue => cases h
  case isFalse hw =>
  split at h
  case isTrue => cases h
  case isFalse ha =>
  split at h
  case h_2 => cases h
  case h_1 r2 heq1 =>
  split at h
  case isTrue => cases h
  case isFalse hb =>
  split at h
  case h_2 => cases h
  case h_1 r3 heq2 =>
  split at h
  case isTrue => cases h
  case isFalse hn =>
  injection h with h1
  injection h1 with hm hr
  refine ⟨(s.drop bearerLit.length).take (runCount spaceChar (s.drop bearerLit.length)),
    ((s.drop bearerLit.length).drop (runCount spaceChar (s.drop bearerLit.length))).take
      (runCount tokenChar ((s.drop bearerLit.length).drop (runCount spaceChar (s.drop bearerLit.length)))),
    r2.take (runCount tokenChar r2),
    r3.take (runCount tokenChar r3), ?_, ?_, ?_, ?_, ?_, ?_, ?_, ?_, ?_, ?_, ?_⟩
  · exact take_runCount_all _ _
  · exact take_run_ne_nil _ _ hw
  · exact take_runCount_all _ _
  · exact take_run_ne_nil _ _ ha
  · exact take_runCount_all _ _
  · exact take_run_ne_nil _ _ hb
  · exact take_runCount_all _ _
  · exact take_run_ne_nil _ _ hn
  · exact hm.symm
  · subst hm
    subst hr
    have key : bearerLit ++
        ((s.drop bearerLit.length).take (runCount spaceChar (s.drop bearerLit.length)) ++
          (((s.drop bearerLit.length).drop (runCount spaceChar (s.drop bearerLit.length))).take
              (runCount tokenChar ((s.drop bearerLit.length).drop (runCount spaceChar (s.drop bearerLit.length)))) ++
            '.' :: (r2.take (runCount tokenChar r2) ++
              '.' :: (r3.take (runCount tokenChar r3) ++ r3.drop (runCount tokenChar r3))))) = s := by
      rw [List.take_append_drop (runCount tokenChar r3) r3, ← heq2,
        List.take_append_drop (runCount tokenChar r2) r2, ← heq1,
        List.take_append_drop, List.take_append_drop]
      exact (eq_append_drop_of_isPre hpre).symm
    exact key.symm.trans (by simp [List.append_assoc])
  · intro c r' hrc
    subst hr
    exact drop_runCount_head tokenChar r3 hrc

/-- Computing the JWT matcher on a recomposed match followed by a remainder
that does not extend the final token run: it finds exactly the match. -/
theorem jwt_parse (ws t1 t2 t3 tail : List Char)
    (hws : ws.all spaceChar = true) (hws0 : ws ≠ [])
    (h1 : t1.all tokenChar = true) (h10 : t1 ≠ [])
    (h2 : t2.all tokenChar = true) (h20 : t2 ≠ [])
    (h3 : t3.all tokenChar = true) (h30 : t3 ≠ [])
    (htail : ∀ c tl, tail = c :: tl → tokenChar c = false) :
    jwtMatchAt (bearerLit ++ (ws ++ (t1 ++ '.' :: (t2 ++ '.' :: (t3 ++ tail))))) =
      some (bearerLit ++ ws ++ (t1 ++ '.' :: (t2 ++ '.' :: t3)), tail) := by
  obtain ⟨c1, t1r, rfl⟩ : ∃ c t', t1 = c :: t' := by
    cases t1 with
    | nil => exact absurd rfl h10
    | cons c t' => exact ⟨c, t', rfl⟩
  rw [List.all_cons, Bool.and_eq_true] at h1
  obtain ⟨hc1, h1r⟩ := h1
  have hpre : bearerLit.isPrefixOf
      (bearerLit ++ (ws ++ (c1 :: t1r ++ '.' :: (t2 ++ '.' :: (t3 ++ tail))))) = true :=
    List.isPrefixOf_iff_prefix.mpr ⟨_, rfl⟩
  have hw : runCount spaceChar
      (ws ++ (c1 :: t1r ++ '.' :: (t2 ++ '.' :: (t3 ++ tail)))) = ws.length :=
    runCount_append_stop spaceChar _ hws (token_not_space c1 hc1)
  have ha : runCount tokenChar ((c1 :: t1r) ++ '.' :: (t2 ++ '.' :: (t3 ++ tail))) =
      (c1 :: t1r).length :=
    runCount_append_stop tokenChar _ (by rw [List.all_cons, Bool.and_eq_true]; exact ⟨hc1, h1r⟩) (by decide)
  have hb : runCount tokenChar (t2 ++ '.' :: (t3 ++ tail)) = t2.length :=
    runCount_append_stop tokenChar _ h2 (by decide)
  have hn : runCount tokenChar (t3 ++ tail) = t3.length := by
    cases htl : tail with
    | nil => rw [List.append_nil]; exact runCount_all_eq tokenChar h3
    | cons c tl => exact runCount_append_stop tokenChar _ h3 (htail c tl htl)
  unfold jwtMatchAt
  rw [if_pos hpre]
  dsimp only
  rw [List.drop_left]
  rw [hw]
  rw [if_neg (fun h => hws0 (List.length_eq_zero.mp h))]
  rw [List.drop_left]
  rw [ha]
  rw [if_neg (by simp)]
  rw [List.drop_left]
  split
  case h_2 x hx => exact absurd rfl (hx _)
  case h_1 r2 heq =>
  injection heq with heq1 heq2
  subst heq2
  rw [hb]
  rw [if_neg (fun h => h20 (List.length_eq_zero.mp h))]
  rw [List.drop_left]
  split
  case h_2 x hx => exact absurd rfl (hx _)
  case h_1 r3 heq3 =>
  injection heq3 with heq4 heq5
  subst heq5
  rw [hn]
  rw [if_neg (fun h => h30 (List.length_eq_zero.mp h))]
  rw [List.take_left, List.take_left, List.take_left, List.take_left,
    List.drop_left]

/-- The JWT matcher succeeds on any recomposed match followed by anything. -/
theorem jwt_parse_some (ws t1 t2 t3 tail : List Char)
    (hws : ws.all spaceChar = true) (hws0 : ws ≠ [])
    (h1 : t1.all tokenChar = true) (h10 : t1 ≠ [])
    (h2 : t2.all tokenChar = true) (h20 : t2 ≠ [])
    (h3 : t3.all tokenChar = true) (h30 : t3 ≠ []) :
    jwtMatchAt (bearerLit ++ (ws ++ (t1 ++ '.' :: (t2 ++ '.' :: (t3 ++ tail))))) ≠
      none := by
  obtain ⟨c1, t1r, rfl⟩ : ∃ c t', t1 = c :: t' := by
    cases t1 with
    | nil => exact absurd rfl h10
    | cons c t' => exact ⟨c, t', rfl⟩
  rw [List.all_cons, Bool.and_eq_true] at h1
  obtain ⟨hc1, h1r⟩ := h1
  have hpre : bearerLit.isPrefixOf
      (bearerLit ++ (ws ++ (c1 :: t1r ++ '.' :: (t2 ++ '.' :: (t3 ++ tail))))) = true :=
    List.isPrefixOf_iff_prefix.mpr ⟨_, rfl⟩
  have hw : runCount spaceChar
      (ws ++ (c1 :: t1r ++ '.' :: (t2 ++ '.' :: (t3 ++ tail)))) = ws.length :=
    runCount_append_stop spaceChar _ hws (token_not_space c1 hc1)
  have ha : runCount tokenChar ((c1 :: t1r) ++ '.' :: (t2 ++ '.' :: (t3 ++ tail))) =
      (c1 :: t1r).length :=
    runCount_append_stop tokenChar _
      (by rw [List.all_cons, Bool.and_eq_true]; exact ⟨hc1, h1r⟩) (by decide)
  have hb : runCount tokenChar (t2 ++ '.' :: (t3 ++ tail)) = t2.length :=
    runCount_append_stop tokenChar _ h2 (by decide)
  have hn : runCount tokenChar (t3 ++ tail) = t3.length + runCount tokenChar tail :=
    runCount_append_all tokenChar tail h3
  intro hcon
  unfold jwtMatchAt at hcon
  rw [if_pos hpre] at hcon
  dsimp only at hcon
  rw [List.drop_left, hw, if_neg (fun h => hws0 (List.length_eq_zero.mp h)),
    List.drop_left, ha, if_neg (by simp), List.drop_left] at hcon
  split at hcon
  case h_2 x hx => exact absurd rfl (hx _)
  case h_1 r2 heq =>
  injection heq with heq1 heq2
  subst heq2
  rw [hb, if_neg (fun h => h20 (List.length_eq_zero.mp h)), List.drop_left] at hcon
  split at hcon
  case h_2 x hx => exact absurd rfl (hx _)
  case h_1 r3 heq3 =>
  injection heq3 with heq4 heq5
  subst heq5
  rw [hn, if_neg (fun h0 => h30 (List.length_eq_zero.mp (by omega)))] at hcon
  cases hcon

/-- Decomposition of a full-string JWT match. -/
theorem jwtIsMat_inv {m : List Char} (hm : jwtIsMat m = true) :
    ∃ ws t1 t2 t3 : List Char,
      ws.all spaceChar = true ∧ ws ≠ [] ∧ t1.all tokenChar = true ∧ t1 ≠ [] ∧
      t2.all tokenChar = true ∧ t2 ≠ [] ∧ t3.all tokenChar = true ∧ t3 ≠ [] ∧
      m = bearerLit ++ ws ++ (t1 ++ '.' :: (t2 ++ '.' :: t3)) := by
  unfold jwtIsMat at hm
  rcases hmm : jwtMatchAt m with _ | ⟨m', rest⟩
  · rw [hmm] at hm
    cases hm
  · rw [hmm] at hm
    have hrest : rest = [] := by
      cases rest with
      | nil => rfl
      | cons a b => cases hm
    subst hrest
    obtain ⟨ws, t1, t2, t3, hws, hws0, h1, h10, h2, h20, h3, h30, hm', hs, -⟩ :=
      jwt_inv hmm
    rw [List.append_nil] at hs
    exact ⟨ws, t1, t2, t3, hws, hws0, h1, h10, h2, h20, h3, h30, by rw [hs, hm']⟩

theorem jwt_sound : ∀ s m r, jwtMatchAt s = some (m, r) →
    s = m ++ r ∧ jwtIsMat m = true := by
  intro s m r h
  obtain ⟨ws, t1, t2, t3, hws, hws0, h1, h10, h2, h20, h3, h30, hm, hs, -⟩ :=
    jwt_inv h
  refine ⟨hs, ?_⟩
  have hp := jwt_parse ws t1 t2 t3 [] hws hws0 h1 h10 h2 h20 h3 h30
    (fun c tl hc => by cases hc)
  rw [List.append_nil] at hp
  have hm2 : m = bearerLit ++ (ws ++ (t1 ++ '.' :: (t2 ++ '.' :: t3))) := by
    rw [hm, List.append_assoc]
  rw [hm2]
  unfold jwtIsMat
  rw [hp]
  rfl

theorem jwt_nonempty : ∀ m, jwtIsMat m = true → m ≠ [] := by
  intro m hm he
  rw [he] at hm
  exact absurd hm (by decide)

theorem jwt_complete : ∀ m r, jwtIsMat m = true → jwtMatchAt (m ++ r) ≠ none := by
  intro m r hm
  obtain ⟨ws, t1, t2, t3, hws, hws0, h1, h10, h2, h20, h3, h30, hm'⟩ :=
    jwtIsMat_inv hm
  have he : m ++ r = bearerLit ++ (ws ++ (t1 ++ '.' :: (t2 ++ '.' :: (t3 ++ r)))) := by
    rw [hm']
    simp [List.append_assoc]
  rw [he]
  exact jwt_parse_some ws t1 t2 t3 r hws hws0 h1 h10 h2 h20 h3 h30

theorem all_mem_false {cls : Char → Bool} {xs : List Char} {b : Char}
    (h : xs.all cls = true) (hb : cls b = false) : b ∉ xs := by
  intro hx
  rw [List.all_eq_true] at h
  have := h b hx
  rw [hb] at this
  cases this

theorem jwt_no_char (b : Char) (hbB : b ∉ bearerLit) (hbs : spaceChar b = false)
    (hbt : tokenChar b = false) (hbd : b ≠ '.') :
    ∀ m, jwtIsMat m = true → b ∉ m := by
  intro m hm hbm
  obtain ⟨ws, t1, t2, t3, hws, -, h1, -, h2, -, h3, -, hm'⟩ := jwtIsMat_inv hm
  rw [hm'] at hbm
  rcases List.mem_append.mp hbm with h | h
  · rcases List.mem_append.mp h with h | h
    · exact hbB h
    · exact all_mem_false hws hbs h
  · rcases List.mem_append.mp h with h | h
    · exact all_mem_false h1 hbt h
    · rcases List.mem_cons.mp h with h | h
      · exact hbd h
      · rcases List.mem_append.mp h with h | h
        · exact all_mem_false h2 hbt h
        · rcases List.mem_cons.mp h with h | h
          · exact hbd h
          · exact all_mem_false h3 hbt h

theorem jwt_nosent : ∀ m, jwtIsMat m = true → ¬ m <:+: REDACTED_TEXT := by
  intro m hm hinf
  obtain ⟨ws, t1, t2, t3, -, -, -, -, -, -, -, -, hm'⟩ := jwtIsMat_inv hm
  have hB : 'B' ∈ m := by
    rw [hm']
    exact List.mem_append.mpr (Or.inl (List.mem_append.mpr (Or.inl (by decide))))
  obtain ⟨u, v, hEq⟩ := hinf
  have : 'B' ∈ REDACTED_TEXT := by
    rw [← hEq]
    exact List.mem_append.mpr (Or.inl (List.mem_append.mpr (Or.inr hB)))
  exact absurd this (by decide)

/-- The JWT pattern is good. -/
theorem jwtPat_good : GoodPat jwtRePat where
  sound := jwt_sound
  nonempty := jwt_nonempty
  complete := jwt_complete
  alphL := jwt_no_char '[' (by decide) (by decide) (by decide) (by decide)
  alphR := jwt_no_char ']' (by decide) (by decide) (by decide) (by decide)
  nosent := jwt_nosent

/-! ## Scan lemmas -/

theorem sentinel_cons : REDACTED_TEXT = '[' :: strL "REDACTED_SECRET]" := rfl

theorem GoodPat.msound {p : RePat} (hg : GoodPat p) : MSound p.matchAt := by
  intro s m r h
  obtain ⟨hs, hm⟩ := hg.sound s m r h
  exact ⟨hs, hg.nonempty m hm⟩

theorem cutCons {m : List Char} {c : Char} {t : List Char} (h : m <:+: c :: t) :
    m <+: c :: t ∨ m <:+: t := by
  obtain ⟨u, v, huv⟩ := h
  cases u with
  | nil => exact Or.inl ⟨v, huv⟩
  | cons d u' =>
    injection huv with h1 h2
    exact Or.inr ⟨u', v, h2⟩

theorem cutAppend {m x y : List Char} (h : m <:+: x ++ y) :
    m <:+: x ∨ m <:+: y ∨
      ∃ a b, a ++ b = m ∧ a ≠ [] ∧ b ≠ [] ∧ a <:+ x ∧ b <+: y := by
  obtain ⟨u, v, huv⟩ := h
  rcases List.append_eq_append_iff.mp huv with ⟨k, hx, hv⟩ | ⟨k, hum, hy⟩
  · exact Or.inl ⟨u, k, hx.symm⟩
  · rcases List.append_eq_append_iff.mp hum with ⟨a', hx, hm⟩ | ⟨c', hu, hk⟩
    · cases a' with
      | nil =>
        refine Or.inr (Or.inl ?_)
        refine ⟨[], v, ?_⟩
        rw [List.nil_append]
        rw [List.nil_append] at hm
        rw [← hm] at hy
        rw [hy]
      | cons e a'' =>
        cases k with
        | nil =>
          refine Or.inl ⟨u, [], ?_⟩
          rw [List.append_nil] at hm ⊢
          rw [← hm] at hx
          rw [hx]
        | cons f k' =>
          refine Or.inr (Or.inr ⟨e :: a'', f :: k', hm.symm, by simp, by simp,
            ⟨u, hx.symm⟩, ⟨v, hy.symm⟩⟩)
    · refine Or.inr (Or.inl ?_)
      refine ⟨c', v, ?_⟩
      rw [hy, hk]

theorem sentinel_suffix_mem {a : List Char} (h : a <:+ REDACTED_TEXT)
    (h0 : a ≠ []) : ']' ∈ a := by
  obtain ⟨u, hu⟩ := h
  have ha : a = REDACTED_TEXT.drop u.length := by
    rw [← hu, List.drop_left]
  have hlen : u.length + a.length = REDACTED_TEXT.length := by
    rw [← hu, List.length_append]
  have halen : 1 ≤ a.length := by
    cases a with
    | nil => exact absurd rfl h0
    | cons x xs => simp
  have hbound : u.length < 17 := by
    have : REDACTED_TEXT.length = 17 := rfl
    omega
  have key : ∀ k, k < 17 → ']' ∈ REDACTED_TEXT.drop k := by decide
  rw [ha]
  exact key u.length hbound

theorem subF_cons (M : List Char → Option (List Char × List Char))
    (fuel : Nat) (c : Char) (cs : List Char) :
    subF M (fuel + 1) (c :: cs) =
      match M (c :: cs) with
      | some (_, rest) => REDACTED_TEXT ++ subF M fuel rest
      | none => c :: subF M fuel cs := rfl

theorem subF_cons_none {M : List Char → Option (List Char × List Char)}
    {c : Char} {cs : List Char} (h : M (c :: cs) = none) (fuel : Nat) :
    subF M (fuel + 1) (c :: cs) = c :: subF M fuel cs := by
  rw [subF_cons, h]

theorem subF_cons_some {M : List Char → Option (List Char × List Char)}
    {c : Char} {cs m rest : List Char} (h : M (c :: cs) = some (m, rest))
    (fuel : Nat) :
    subF M (fuel + 1) (c :: cs) = REDACTED_TEXT ++ subF M fuel rest := by
  rw [subF_cons, h]

theorem msound_rest_len {M : List Char → Option (List Char × List Char)}
    (hM : MSound M) {c : Char} {cs m rest : List Char}
    (h : M (c :: cs) = some (m, rest)) : rest.length ≤ cs.length := by
  obtain ⟨hs, hne⟩ := hM _ _ _ h
  have hl := congrArg List.length hs
  rw [List.length_append, List.length_cons] at hl
  cases m with
  | nil => exact absurd rfl hne
  | cons a b =>
    rw [List.length_cons] at hl
    omega

theorem subF_repl {M : List Char → Option (List Char × List Char)}
    (hM : MSound M) : ∀ fuel s, s.length ≤ fuel → Repl s (subF M fuel s) := by
  intro fuel
  induction fuel with
  | zero =>
    intro s hs
    have : s = [] := List.length_eq_zero.mp (Nat.le_zero.mp hs)
    subst this
    exact Repl.nil
  | succ f ih =>
    intro s hs
    cases s with
    | nil => exact Repl.nil
    | cons c cs =>
      rcases hMc : M (c :: cs) with _ | ⟨m, rest⟩
      · rw [subF_cons_none hMc]
        refine Repl.copy c (ih cs ?_)
        rw [List.length_cons] at hs
        omega
      · rw [subF_cons_some hMc]
        obtain ⟨hsplit, hne⟩ := hM _ _ _ hMc
        have hlen : rest.length ≤ cs.length := msound_rest_len hM hMc
        rw [hsplit]
        refine Repl.repl hne (ih rest ?_)
        rw [List.length_cons] at hs
        omega

theorem repl_pre {t out : List Char} (h : Repl t out) :
    ∀ w : List Char, '[' ∉ w → w <+: out → w <+: t := by
  induction h with
  | nil => intro w _ hp; exact hp
  | copy c hrepl ih =>
    intro w hw hp
    cases w with
    | nil => exact List.nil_prefix
    | cons d w' =>
      obtain ⟨t', ht'⟩ := hp
      injection ht' with h1 h2
      subst h1
      have hw' : '[' ∉ w' := fun hx => hw (List.mem_cons_of_mem _ hx)
      obtain ⟨u, hu⟩ := ih w' hw' ⟨t', h2⟩
      exact ⟨u, by rw [List.cons_append, hu]⟩
  | repl hne hrepl ih =>
    intro w hw hp
    cases w with
    | nil => exact List.nil_prefix
    | cons d w' =>
      obtain ⟨t', ht'⟩ := hp
      rw [sentinel_cons] at ht'
      injection ht' with h1 h2
      subst h1
      exact absurd (List.mem_cons_self _ _) hw

theorem repl_preserve {p : RePat} (hg : GoodPat p) :
    ∀ {t out : List Char}, Repl t out →
      (∀ m, p.isMat m = true → ¬ m <:+: t) →
      ∀ m, p.isMat m = true → ¬ m <:+: out := by
  intro t out h
  induction h with
  | nil =>
    intro _ m hm hinf
    obtain ⟨u, v, huv⟩ := hinf
    rw [List.append_eq_nil] at huv
    rcases huv with ⟨h1, h2⟩
    rw [List.append_eq_nil] at h1
    exact hg.nonempty m hm h1.2
  | copy c hrepl ih =>
    intro hno m hm hinf
    rcases cutCons hinf with hpre | hinf'
    · have hp2 := repl_pre (Repl.copy c hrepl) m
        (fun hx => hg.alphL m hm hx) hpre
      exact hno m hm (pre_partOf hp2)
    · exact ih (fun m' hm' hi => hno m' hm' (partOf_cons c hi)) m hm hinf'
  | repl hne hrepl ih =>
    intro hno m hm hinf
    rcases cutAppend hinf with h1 | h1 | ⟨a, b, hab, ha0, _, has, _⟩
    · exact hg.nosent m hm h1
    · exact ih (fun m' hm' hi => hno m' hm' (partOf_appendRight _ hi)) m hm h1
    · have hr := sentinel_suffix_mem has ha0
      have hmem : ']' ∈ m := by
        rw [← hab]
        exact List.mem_append.mpr (Or.inl hr)
      exact hg.alphR m hm hmem

theorem partOf_nil_elim {p : RePat} (hg : GoodPat p) {m : List Char}
    (hm : p.isMat m = true) (h : m <:+: ([] : List Char)) : False := by
  obtain ⟨u, v, huv⟩ := h
  rw [List.append_eq_nil] at huv
  rcases huv with ⟨h1, _⟩
  rw [List.append_eq_nil] at h1
  exact hg.nonempty m hm h1.2

theorem subF_no_self {p : RePat} (hg : GoodPat p) :
    ∀ fuel s, s.length ≤ fuel →
      ∀ m, p.isMat m = true → ¬ m <:+: subF p.matchAt fuel s := by
  intro fuel
  induction fuel with
  | zero =>
    intro s hs m hm hinf
    have : s = [] := List.length_eq_zero.mp (Nat.le_zero.mp hs)
    subst this
    exact partOf_nil_elim hg hm hinf
  | succ f ih =>
    intro s hs m hm hinf
    cases s with
    | nil => exact partOf_nil_elim hg hm hinf
    | cons c cs =>
      rw [List.length_cons] at hs
      rcases hMc : p.matchAt (c :: cs) with _ | ⟨m', rest⟩
      · rw [subF_cons_none hMc] at hinf
        rcases cutCons hinf with hpre | hinf'
        · have hr : Repl (c :: cs) (c :: subF p.matchAt f cs) :=
            Repl.copy c (subF_repl hg.msound f cs (by omega))
          have hp2 := repl_pre hr m (fun hx => hg.alphL m hm hx) hpre
          obtain ⟨w, hw⟩ := hp2
          have hc := hg.complete m w hm
          rw [hw] at hc
          exact hc hMc
        · exact ih cs (by omega) m hm hinf'
      · rw [subF_cons_some hMc] at hinf
        have hlen : rest.length ≤ cs.length := msound_rest_len hg.msound hMc
        rcases cutAppend hinf with h1 | h1 | ⟨a, b, hab, ha0, _, has, _⟩
        · exact hg.nosent m hm h1
        · exact ih rest (by omega) m hm h1
        · have hr := sentinel_suffix_mem has ha0
          have hmem : ']' ∈ m := by
            rw [← hab]
            exact List.mem_append.mpr (Or.inl hr)
          exact hg.alphR m hm hmem

theorem subF_preserve {p : RePat} (hg : GoodPat p)
    {M : List Char → Option (List Char × List Char)} (hM : MSound M) :
    ∀ fuel s, s.length ≤ fuel →
      (∀ m, p.isMat m = true → ¬ m <:+: s) →
      ∀ m, p.isMat m = true → ¬ m <:+: subF M fuel s :=
  fun fuel s hs hno => repl_preserve hg (subF_repl hM fuel s hs) hno

theorem subF_unchanged {p : RePat} (hg : GoodPat p) :
    ∀ fuel s, s.length ≤ fuel →
      (∀ m, p.isMat m = true → ¬ m <:+: s) →
      subF p.matchAt fuel s = s := by
  intro fuel
  induction fuel with
  | zero =>
    intro s hs _
    have : s = [] := List.length_eq_zero.mp (Nat.le_zero.mp hs)
    subst this
    rfl
  | succ f ih =>
    intro s hs hno
    cases s with
    | nil => rfl
    | cons c cs =>
      rw [List.length_cons] at hs
      rcases hMc : p.matchAt (c :: cs) with _ | ⟨m', rest⟩
      · rw [subF_cons_none hMc]
        have := ih cs (by omega) (fun m hm hi => hno m hm (partOf_cons c hi))
        rw [this]
      · exfalso
        obtain ⟨hsplit, hm'⟩ := hg.sound _ _ _ hMc
        exact hno m' hm' (pre_partOf ⟨rest, hsplit.symm⟩)

theorem subF_R (M : List Char → Option (List Char × List Char)) :
    ∀ fuel s, s.length ≤ fuel →
      subF M fuel s = s ∨ REDACTED_TEXT <:+: subF M fuel s := by
  intro fuel
  induction fuel with
  | zero =>
    intro s hs
    have : s = [] := List.length_eq_zero.mp (Nat.le_zero.mp hs)
    subst this
    exact Or.inl rfl
  | succ f ih =>
    intro s hs
    cases s with
    | nil => exact Or.inl rfl
    | cons c cs =>
      rw [List.length_cons] at hs
      rcases hMc : M (c :: cs) with _ | ⟨m, rest⟩
      · rw [subF_cons_none hMc]
        rcases ih cs (by omega) with he | hsent
        · rw [he]
          exact Or.inl rfl
        · exact Or.inr (partOf_cons c hsent)
      · rw [subF_cons_some hMc]
        exact Or.inr (partOf_appendLeft _ (partOf_refl _))

theorem subF_match_sent {p : RePat} (hg : GoodPat p) :
    ∀ fuel s, s.length ≤ fuel →
      (∃ m, p.isMat m = true ∧ m <:+: s) →
      REDACTED_TEXT <:+: subF p.matchAt fuel s := by
  intro fuel
  induction fuel with
  | zero =>
    intro s hs ⟨m, hm, hinf⟩
    have : s = [] := List.length_eq_zero.mp (Nat.le_zero.mp hs)
    subst this
    exact absurd hinf (fun h => partOf_nil_elim hg hm h)
  | succ f ih =>
    intro s hs hex
    cases s with
    | nil =>
      obtain ⟨m, hm, hinf⟩ := hex
      exact absurd hinf (fun h => partOf_nil_elim hg hm h)
    | cons c cs =>
      rw [List.length_cons] at hs
      rcases hMc : p.matchAt (c :: cs) with _ | ⟨m', rest⟩
      · obtain ⟨m, hm, hinf⟩ := hex
        rw [subF_cons_none hMc]
        rcases cutCons hinf with hpre | hinf'
        · exfalso
          obtain ⟨w, hw⟩ := hpre
          have hc := hg.complete m w hm
          rw [hw] at hc
          exact hc hMc
        · exact partOf_cons c (ih cs (by omega) ⟨m, hm, hinf'⟩)
      · rw [subF_cons_some hMc]
        exact partOf_appendLeft _ (partOf_refl _)

theorem repl_sent_pre {t out : List Char} (h : Repl t out) :
    ∀ b, b ≠ [] → (∃ a, a ++ b = REDACTED_TEXT) → b <+: t →
      b <+: out ∨ REDACTED_TEXT <:+: out := by
  induction h with
  | nil =>
    intro b hb0 _ hbp
    rw [List.prefix_nil] at hbp
    exact absurd hbp hb0
  | copy c hrepl ih =>
    intro b hb0 ha hbp
    cases b with
    | nil => exact absurd rfl hb0
    | cons d b' =>
      obtain ⟨t', ht'⟩ := hbp
      injection ht' with h1 h2
      subst h1
      cases b' with
      | nil => exact Or.inl ⟨_, rfl⟩
      | cons e b'' =>
        obtain ⟨a, hA⟩ := ha
        have ih' := ih (e :: b'') (by simp)
          ⟨a ++ [d], by rw [← hA]; simp⟩ ⟨t', h2⟩
        rcases ih' with h3 | h3
        · obtain ⟨u, hu⟩ := h3
          exact Or.inl ⟨u, by rw [List.cons_append, hu]⟩
        · exact Or.inr (partOf_cons _ h3)
  | repl hne hrepl ih =>
    intro b _ _ _
    exact Or.inr (partOf_appendLeft _ (partOf_refl _))

theorem repl_sent {t out : List Char} (h : Repl t out) :
    REDACTED_TEXT <:+: t → REDACTED_TEXT <:+: out := by
  induction h with
  | nil =>
    intro hs
    obtain ⟨u, v, huv⟩ := hs
    rw [sentinel_cons] at huv
    simp at huv
  | copy c hrepl ih =>
    intro hs
    rcases cutCons hs with hpre | hinf
    · have h2 := repl_sent_pre (Repl.copy c hrepl) REDACTED_TEXT
        (by rw [sentinel_cons]; simp) ⟨[], rfl⟩ hpre
      rcases h2 with h3 | h3
      · exact pre_partOf h3
      · exact h3
    · exact partOf_cons c (ih hinf)
  | repl hne hrepl ih =>
    intro _
    exact partOf_appendLeft _ (partOf_refl _)

theorem subF_sent {M : List Char → Option (List Char × List Char)}
    (hM : MSound M) (fuel : Nat) (s : List Char) (hlen : s.length ≤ fuel)
    (h : REDACTED_TEXT <:+: s) : REDACTED_TEXT <:+: subF M fuel s :=
  repl_sent (subF_repl hM fuel s hlen) h

/-! ## Whole-redaction lemmas -/

theorem secret_patterns_good : ∀ p ∈ secret_patterns, GoodPat p := by
  intro p hp
  simp only [secret_patterns, List.mem_cons, List.not_mem_nil, or_false] at hp
  rcases hp with rfl | rfl | rfl | rfl | rfl | rfl | rfl | rfl | rfl
  exacts [awsPat_good, ghpPat_good, ghsPat_good, slackPat_good, openaiPat_good,
    stripePat_good, jwtPat_good, pkPat_good, googlePat_good]

theorem foldl_preserve (ps : List RePat) (hgood : ∀ q ∈ ps, GoodPat q)
    {p : RePat} (hp : GoodPat p) :
    ∀ s, (∀ m, p.isMat m = true → ¬ m <:+: s) →
      ∀ m, p.isMat m = true →
        ¬ m <:+: ps.foldl (fun t q => re_sub q.matchAt t) s := by
  induction ps with
  | nil =>
    intro s h m hm
    exact h m hm
  | cons q qs ih =>
    intro s h m hm
    rw [List.foldl_cons]
    exact ih (fun r hr => hgood r (List.mem_cons_of_mem _ hr))
      (re_sub q.matchAt s)
      (subF_preserve hp (hgood q (List.mem_cons_self _ _)).msound s.length s
        (Nat.le_refl _) h)
      m hm

theorem foldl_no_match (ps : List RePat) (hgood : ∀ q ∈ ps, GoodPat q) :
    ∀ s, ∀ p ∈ ps, ∀ m, p.isMat m = true →
      ¬ m <:+: ps.foldl (fun t q => re_sub q.matchAt t) s := by
  induction ps with
  | nil => simp
  | cons q qs ih =>
    intro s p hp m hm
    rw [List.foldl_cons]
    rcases List.mem_cons.mp hp with rfl | hp'
    · exact foldl_preserve qs (fun r hr => hgood r (List.mem_cons_of_mem _ hr))
        (hgood p (List.mem_cons_self _ _)) (re_sub p.matchAt s)
        (subF_no_self (hgood p (List.mem_cons_self _ _)) s.length s
          (Nat.le_refl _))
        m hm
    · exact ih (fun r hr => hgood r (List.mem_cons_of_mem _ hr))
        (re_sub q.matchAt s) p hp' m hm

theorem foldl_sent (ps : List RePat) (hgood : ∀ q ∈ ps, GoodPat q) :
    ∀ s, REDACTED_TEXT <:+: s →
      REDACTED_TEXT <:+: ps.foldl (fun t q => re_sub q.matchAt t) s := by
  induction ps with
  | nil => intro s h; exact h
  | cons q qs ih =>
    intro s h
    rw [List.foldl_cons]
    exact ih (fun r hr => hgood r (List.mem_cons_of_mem _ hr))
      (re_sub q.matchAt s)
      (subF_sent (hgood q (List.mem_cons_self _ _)).msound s.length s
        (Nat.le_refl _) h)

theorem foldl_match_sent (ps : List RePat) (hgood : ∀ q ∈ ps, GoodPat q) :
    ∀ s, (∃ p ∈ ps, ∃ m, p.isMat m = true ∧ m <:+: s) →
      REDACTED_TEXT <:+: ps.foldl (fun t q => re_sub q.matchAt t) s := by
  induction ps with
  | nil =>
    intro s h
    obtain ⟨p, hp, -⟩ := h
    exact absurd hp (List.not_mem_nil p)
  | cons q qs ih =>
    intro s h
    obtain ⟨p, hp, m, hm, hinf⟩ := h
    rw [List.foldl_cons]
    rcases List.mem_cons.mp hp with rfl | hp'
    · exact foldl_sent qs (fun r hr => hgood r (List.mem_cons_of_mem _ hr))
        (re_sub p.matchAt s)
        (subF_match_sent (hgood p (List.mem_cons_self _ _)) s.length s
          (Nat.le_refl _) ⟨m, hm, hinf⟩)
    · rcases subF_R q.matchAt s.length s (Nat.le_refl _) with he | hsent
      · have : re_sub q.matchAt s = s := he
        rw [this]
        exact ih (fun r hr => hgood r (List.mem_cons_of_mem _ hr)) s
          ⟨p, hp', m, hm, hinf⟩
      · exact foldl_sent qs (fun r hr => hgood r (List.mem_cons_of_mem _ hr))
          (re_sub q.matchAt s) hsent

theorem foldl_unchanged (ps : List RePat) (hgood : ∀ q ∈ ps, GoodPat q) :
    ∀ s, (∀ p ∈ ps, ∀ m, p.isMat m = true → ¬ m <:+: s) →
      ps.foldl (fun t q => re_sub q.matchAt t) s = s := by
  induction ps with
  | nil => intro s _; rfl
  | cons q qs ih =>
    intro s h
    rw [List.foldl_cons]
    have he : re_sub q.matchAt s = s :=
      subF_unchanged (hgood q (List.mem_cons_self _ _)) s.length s
        (Nat.le_refl _) (h q (List.mem_cons_self _ _))
    rw [he]
    exact ih (fun r hr => hgood r (List.mem_cons_of_mem _ hr)) s
      (fun p hp => h p (List.mem_cons_of_mem _ hp))

/-- Relates "some substring of `s` matches pattern `p`" to the bounded,
decidable take/drop formulation. -/
theorem partOf_isMat_of_window {p : RePat} {s m : List Char}
    (hm : p.isMat m = true) (hinf : m <:+: s) :
    ∃ i j, i < s.length + 1 ∧ j < s.length + 1 ∧ (s.drop i).take j = m := by
  obtain ⟨u, v, huv⟩ := hinf
  refine ⟨u.length, m.length, ?_, ?_, ?_⟩
  · have := congrArg List.length huv
    simp only [List.length_append] at this
    omega
  · have := congrArg List.length huv
    simp only [List.length_append] at this
    omega
  · have hdrop : s.drop u.length = m ++ v := by
      rw [← huv, List.append_assoc, List.drop_left]
    rw [hdrop, List.take_left]

/-! ## Claims C5 and C10 — secret redaction -/

/-- C5: for every diff text, (a) no string matching any of the nine
configured credential patterns occurs in the output of `redact_secrets` — in
particular any matched credential substring of the input is gone — and when
the input does contain a matched substring the fixed sentinel occurs in the
output; (b) an input none of whose windows matches any pattern (the bounded
window form of "text matched by no pattern") passes through unchanged. -/
theorem c5_confirmed :
    (∀ s m, (∃ p ∈ secret_patterns, p.isMat m = true) → m <:+: s →
      ¬ m <:+: redact_secrets s ∧ REDACTED_TEXT <:+: redact_secrets s) ∧
    (∀ s, (∀ p ∈ secret_patterns, ∀ i, i < s.length + 1 → ∀ j, j < s.length + 1 →
        p.isMat ((s.drop i).take j) = false) →
      redact_secrets s = s) := by
  constructor
  · intro s m hex hinf
    obtain ⟨p, hp, hm⟩ := hex
    constructor
    · exact foldl_no_match secret_patterns secret_patterns_good s p hp m hm
    · exact foldl_match_sent secret_patterns secret_patterns_good s
        ⟨p, hp, m, hm, hinf⟩
  · intro s h
    refine foldl_unchanged secret_patterns secret_patterns_good s ?_
    intro p hp m hm hinf
    obtain ⟨i, j, hi, hj, hw⟩ := partOf_isMat_of_window hm hinf
    have := h p hp i hi j hj
    rw [hw] at this
    rw [this] at hm
    cases hm

/-- C10: `redact_secrets` is idempotent — its output contains no match of
any configured pattern, so a second pass changes nothing. -/
theorem c10_confirmed : ∀ s, redact_secrets (redact_secrets s) = redact_secrets s := by
  intro s
  exact foldl_unchanged secret_patterns secret_patterns_good (redact_secrets s)
    (fun p hp m hm hinf =>
      foldl_no_match secret_patterns secret_patterns_good s p hp m hm hinf)

/-- C5 witness: a concrete AWS access key embedded in a diff is matched by a
configured pattern, does not survive redaction, and leaves the sentinel; a
concrete text with no matching window is unchanged. -/
theorem c5_witness :
    (∃ p ∈ secret_patterns, p.isMat (strL "AKIA0123456789ABCDEF") = true) ∧
    strL "AKIA0123456789ABCDEF" <:+: strL "key = AKIA0123456789ABCDEF;" ∧
    ¬ strL "AKIA0123456789ABCDEF" <:+:
        redact_secrets (strL "key = AKIA0123456789ABCDEF;") ∧
    REDACTED_TEXT <:+: redact_secrets (strL "key = AKIA0123456789ABCDEF;") ∧
    redact_secrets (strL "no secrets here") = strL "no secrets here" :=
  ⟨by decide, by decide,
   (c5_confirmed.1 (strL "key = AKIA0123456789ABCDEF;")
      (strL "AKIA0123456789ABCDEF") (by decide) (by decide)).1,
   (c5_confirmed.1 (strL "key = AKIA0123456789ABCDEF;")
      (strL "AKIA0123456789ABCDEF") (by decide) (by decide)).2,
   c5_confirmed.2 (strL "no secrets here") (by decide)⟩
